import Mathlib

/-!
Shallow embedding of the HMM fitting core of the glmhmm repository.

The repository slice under verification ships only the demonstration
notebook `examples/fit-hmm.ipynb`; the library it drives (`glmhmm.hmm.HMM`
with `generate_params`, `fit`, `forwardPass`, and `glmhmm.utils.find_best_fit`)
is not part of the slice.  Following the specification, those missing parts
are modelled here from the spec's own words (each such definition carries a
doc comment starting with `Modelled from the spec:`), while the notebook's
driver code (multi-initialization fitting, k-fold assembly, held-out
evaluation) is translated directly from the notebook source.

Probabilities are embedded as rationals (ℚ); the engine returns the exact
total likelihood instead of its logarithm (the logarithm is strictly
monotone, so every comparison/selection statement is unaffected), and ℚ's
total division (x / 0 = 0) stands in for the floating-point special cases.
-/

/-- Model parameters of the HMM: transition matrix `A` (K×K), emission
matrix `phi` (K×C) and initial state distribution `pi0` (length K). -/
@[ext]
structure Params (K C : ℕ) where
  A : Fin K → Fin K → ℚ
  phi : Fin K → Fin C → ℚ
  pi0 : Fin K → ℚ

/-- A vector is a probability distribution: nonnegative entries summing to 1. -/
def rowDist {m : ℕ} (v : Fin m → ℚ) : Prop := (∀ i, 0 ≤ v i) ∧ ∑ i, v i = 1

instance {m : ℕ} (v : Fin m → ℚ) : Decidable (rowDist v) := by
  unfold rowDist; infer_instance

/-- Validity of a parameter triple: every row of A, every row of phi, and
pi0 are probability distributions. -/
def Params.valid {K C : ℕ} (p : Params K C) : Prop :=
  (∀ i, rowDist (p.A i)) ∧ (∀ k, rowDist (p.phi k)) ∧ rowDist p.pi0

instance {K C : ℕ} (p : Params K C) : Decidable p.valid := by
  unfold Params.valid; infer_instance

/-- All entries of the parameter triple are nonnegative. -/
def Params.nonneg {K C : ℕ} (p : Params K C) : Prop :=
  (∀ i j, 0 ≤ p.A i j) ∧ (∀ k c, 0 ≤ p.phi k c) ∧ (∀ k, 0 ≤ p.pi0 k)

theorem Params.valid.toNonneg {K C : ℕ} {p : Params K C} (h : p.valid) : p.nonneg :=
  ⟨fun i j => (h.1 i).1 j, fun k c => (h.2.1 k).1 c, fun k => h.2.2.1 k⟩

/-- First forward vector: α₁(k) = π(k)·φ(k, y₁). -/
def forwardInit {K C : ℕ} (p : Params K C) (c : Fin C) : Fin K → ℚ :=
  fun k => p.pi0 k * p.phi k c

/-- One step of the plain (unscaled) forward recursion:
αₜ(k) = φ(k, yₜ) · Σᵢ αₜ₋₁(i)·A(i,k). -/
def alphaStep {K C : ℕ} (p : Params K C) (a : Fin K → ℚ) (c : Fin C) : Fin K → ℚ :=
  fun k => p.phi k c * ∑ i, a i * p.A i k

/-- Final plain forward vector α_T of the sequence (π itself for T = 0). -/
def alphaLast {K C : ℕ} (p : Params K C) : List (Fin C) → (Fin K → ℚ)
  | [] => p.pi0
  | c :: rest => List.foldl (alphaStep p) (forwardInit p c) rest

/-- Total likelihood of the sequence: Σₖ α_T(k). -/
def likelihood {K C : ℕ} (p : Params K C) (y : List (Fin C)) : ℚ :=
  ∑ k, alphaLast p y k

/-- One step of the scaled forward pass: computes the unscaled update of the
normalized vector, multiplies the running likelihood by its mass, and
re-normalizes.  State is (running likelihood = product of the scale
factors so far, current normalized forward vector). -/
def fwStep {K C : ℕ} (p : Params K C) (st : ℚ × (Fin K → ℚ)) (c : Fin C) :
    ℚ × (Fin K → ℚ) :=
  let a := alphaStep p st.2 c
  (st.1 * ∑ k, a k, fun k => a k / ∑ k, a k)

/-- Modelled from the spec: the forward-pass Engine (`HMM.forwardPass` of the
missing `glmhmm.hmm` module).  Per §4.1 the forward vectors are rescaled at
every step with a running scale factor; the first component of the result is
the total likelihood (the spec's log-likelihood, with the monotone logarithm
omitted), the second the final normalized forward vector. -/
def forwardPass {K C : ℕ} (p : Params K C) : List (Fin C) → ℚ × (Fin K → ℚ)
  | [] => (1, p.pi0)
  | c :: rest =>
    let a := forwardInit p c
    List.foldl (fwStep p) (∑ k, a k, fun k => a k / ∑ k, a k) rest

/-- The model object of the library (`hmm.HMM(N,0,C,K)` in the notebook):
its field `n`, "the number of data points", is mutated in place by the
notebook between phases, and the library's methods size their loops by it. -/
structure HMM where
  n : ℕ

/-- Alias for the pure Engine, usable inside the `HMM` namespace. -/
def engineForward {K C : ℕ} (p : Params K C) (y : List (Fin C)) : ℚ × (Fin K → ℚ) :=
  forwardPass p y

/-- Modelled from the spec and the notebook call sites: the Engine as a
method of the model object.  The notebook must reset `n` before each
evaluation phase because the method processes exactly the first `n` points
of the sequence it is handed. -/
def HMM.forwardPass {K C : ℕ} (m : HMM) (y : List (Fin C)) (p : Params K C) :
    ℚ × (Fin K → ℚ) :=
  engineForward p (y.take m.n)

/-- Backward vector at the current position, given the symbols still ahead:
`betaHd p [] = 1` (that is, β_T) and
`betaHd p (c :: rest) k = Σⱼ A(k,j)·φ(j,c)·β₊(j)` where `c` plays the role of
yₜ₊₁ and `β₊` is the backward vector one step ahead. -/
def betaHd {K C : ℕ} (p : Params K C) : List (Fin C) → (Fin K → ℚ)
  | [] => fun _ => 1
  | c :: rest => fun k => ∑ j, p.A k j * p.phi j c * betaHd p rest j

/-- State-occupation posteriors γₜ..γ_T, given the plain forward vector `a`
at the current position, the total likelihood `L`, and the symbols still
ahead: γₜ(k) = αₜ(k)·βₜ(k) / L. -/
def gammasA {K C : ℕ} (p : Params K C) (L : ℚ) :
    (Fin K → ℚ) → List (Fin C) → List (Fin K → ℚ)
  | a, [] => [fun k => a k * betaHd p [] k / L]
  | a, c :: rest =>
    (fun k => a k * betaHd p (c :: rest) k / L) ::
      gammasA p L (alphaStep p a c) rest

/-- Transition posteriors ξₜ..ξ_(T-1) in the same presentation:
ξₜ(i,j) = αₜ(i)·A(i,j)·φ(j,yₜ₊₁)·βₜ₊₁(j) / L. -/
def xisA {K C : ℕ} (p : Params K C) (L : ℚ) :
    (Fin K → ℚ) → List (Fin C) → List (Fin K → Fin K → ℚ)
  | _, [] => []
  | a, c :: rest =>
    (fun i j => a i * p.A i j * p.phi j c * betaHd p rest j / L) ::
      xisA p L (alphaStep p a c) rest

/-- State-occupation posteriors γ₁..γ_T of the whole sequence. -/
def gammas {K C : ℕ} (p : Params K C) : List (Fin C) → List (Fin K → ℚ)
  | [] => []
  | c :: rest => gammasA p (likelihood p (c :: rest)) (forwardInit p c) rest

/-- Transition posteriors ξ₁..ξ_(T-1) of the whole sequence. -/
def xis {K C : ℕ} (p : Params K C) : List (Fin C) → List (Fin K → Fin K → ℚ)
  | [] => []
  | c :: rest => xisA p (likelihood p (c :: rest)) (forwardInit p c) rest

/-- Modelled from the spec: the closed-form Baum-Welch M-step (§4.2).
`A(i,j) ← (Σₜ ξₜ(i,j)) / (Σₜ γₜ(i))` over t = 1..T-1,
`φ(k,c) ← (Σ_{t : yₜ = c} γₜ(k)) / (Σₜ γₜ(k))` over t = 1..T,
π is left untouched (the notebook does not infer the initial distribution),
and a starved row (zero denominator) retains the previous iteration's row. -/
def mStep {K C : ℕ} (y : List (Fin C)) (p : Params K C) : Params K C :=
  match y with
  | [] => p
  | c0 :: rest =>
    let γ := gammasA p (likelihood p (c0 :: rest)) (forwardInit p c0) rest
    let ξ := xisA p (likelihood p (c0 :: rest)) (forwardInit p c0) rest
    { A := fun i j =>
        let den := (γ.dropLast.map (fun g => g i)).sum
        if den = 0 then p.A i j else ((ξ.map (fun x => x i j)).sum) / den
      phi := fun k c =>
        let den := (γ.map (fun g => g k)).sum
        if den = 0 then p.phi k c
        else ((((c0 :: rest).zip γ).filter (fun t => decide (t.1 = c))).map
          (fun t => t.2 k)).sum / den
      pi0 := p.pi0 }

/-- Modelled from the spec: the EM loop of the Optimizer (§4.2).  Each
iteration records the likelihood of the current parameters (the E-step's
log-likelihood with the monotone logarithm omitted) and re-estimates by the
M-step; it stops when the improvement over the previous iteration falls
below `tol`, or when the iteration budget (the fuel) is exhausted.
`prev` is the previously recorded likelihood, `acc` the reversed trajectory
so far. -/
def fitLoop {K C : ℕ} (y : List (Fin C)) (tol : ℚ) :
    ℕ → Params K C → List ℚ → Option ℚ → List ℚ × Params K C
  | 0, p, acc, _ => (acc.reverse, p)
  | Nat.succ m, p, acc, prev =>
    let ll := likelihood p y
    match prev with
    | some l0 =>
      if ll - l0 < tol then ((ll :: acc).reverse, p)
      else fitLoop y tol m (mStep y p) (ll :: acc) (some ll)
    | none => fitLoop y tol m (mStep y p) (ll :: acc) (some ll)

/-- Modelled from the spec: `fit` restricted to its mathematical content —
the trajectory of likelihoods over the iterations actually executed
(one entry per completed EM iteration, no padding) and the final
parameters. -/
def emRun {K C : ℕ} (y : List (Fin C)) (tol : ℚ) (maxiter : ℕ) (p : Params K C) :
    List ℚ × Params K C :=
  fitLoop y tol maxiter p [] none

/-- The notebook's iteration budget: `lls_all = np.zeros((inits,250))`. -/
def fitMaxiter : ℕ := 250

/-- Modelled from the spec and the notebook call site: the Optimizer
`HMM.fit`.  EM follows §4.2 (via `emRun`); the returned trajectory is a
fixed-width row of length 250, as forced by the notebook's whole-row
assignment `lls_all[i,:] = true_HMM.fit(...)` — entries beyond the last
completed iteration are padding (the padding value is not determined by the
repository slice; `0`, mirroring `np.zeros`, is used here and no claim
depends on it).  π is returned unchanged. -/
def HMM.fit {K C : ℕ} (m : HMM) (y : List (Fin C)) (p : Params K C) (tol : ℚ) :
    List ℚ × Params K C :=
  let r := emRun (y.take m.n) tol fitMaxiter p
  (r.1 ++ List.replicate (fitMaxiter - r.1.length) 0, r.2)

/-- Left fold of the best-so-far (index, value) pair over the remaining
values; the update is strict, so earlier indices win ties. -/
def bestAux : List ℚ → ℕ → ℕ × ℚ → ℕ × ℚ
  | [], _, best => best
  | x :: xs, i, best => bestAux xs (i + 1) (if best.2 < x then (i, x) else best)

/-- Index of the first maximal element of a list (0 for the empty list). -/
def bestIdx (l : List ℚ) : ℕ :=
  match l with
  | [] => 0
  | v :: vs => (bestAux vs 1 (0, v)).1

/-- Modelled from the spec: `find_best_fit` of the missing `glmhmm.utils` —
picks the initialization whose final log-likelihood (the last entry of its
trajectory) is maximal, ties broken by the lowest initialization index. -/
def find_best_fit (lls : List (List ℚ)) : ℕ :=
  bestIdx (lls.map (fun l => l.getLastD 0))

/-- Final log-likelihood of initialization `i` in a collection of
trajectories (the last entry of that trajectory). -/
def finalLL (lls : List (List ℚ)) (i : ℕ) : ℚ := (lls.getD i []).getLastD 0

/-! ### The notebook driver, translated from `src/examples/fit-hmm.ipynb` -/

/-- Cell 5: `N = 20000`, the number of data/time points. -/
def nbN : ℕ := 20000

/-- Cell 19: `folds = 5`. -/
def nbFolds : ℕ := 5

/-- Cell 14 and cell 20: `inits = 2`. -/
def nbInits : ℕ := 2

/-- Cell 19: `train_size = int(N - N/folds)`. -/
def trainSize : ℕ := nbN - nbN / nbFolds

/-- Cell 19: `test_size = int(N/folds)`. -/
def testSize : ℕ := nbN / nbFolds

/-- First index of fold `i` under `sklearn.model_selection.KFold(n_splits=k)`
on `n` samples (contiguous folds, no shuffling; the first `n % k` folds are
one element longer). -/
def foldStart (n k i : ℕ) : ℕ := i * (n / k) + min i (n % k)

/-- Number of test indices of fold `i` under `KFold(n_splits=k)`. -/
def foldLen (n k i : ℕ) : ℕ := n / k + (if i < n % k then 1 else 0)

/-- Test indices of fold `i`: the contiguous block
`[foldStart, foldStart + foldLen)`. -/
def kfoldTestIdx (n k i : ℕ) : List ℕ :=
  (List.range (foldLen n k i)).map (fun t => t + foldStart n k i)

/-- Train indices of fold `i`: everything before the block, then everything
after it. -/
def kfoldTrainIdx (n k i : ℕ) : List ℕ :=
  List.range (foldStart n k i) ++
    (List.range n).drop (foldStart n k i + foldLen n k i)

/-- Cell 19: the row `y_train[i,:] = true_y[train_index]`. -/
def yTrainRow (y : List (Fin 2)) (k i : ℕ) : List (Fin 2) :=
  (kfoldTrainIdx y.length k i).map (fun t => y.getD t 0)

/-- Cell 19: the row `y_test[i,:] = true_y[test_index]`. -/
def yTestRow (y : List (Fin 2)) (k i : ℕ) : List (Fin 2) :=
  (kfoldTestIdx y.length k i).map (fun t => y.getD t 0)

/-- Every `fit`/`forwardPass` call the notebook makes, as the pair
(value of the mutable field `true_HMM.n` at that call, length of the
sequence argument of that call): cell 14 calls `fit(true_y,...)` `inits`
times with `n = N` (set by the constructor in cell 8); cell 20 sets
`n = train_size` and calls `fit(y_train[i,:],...)` `inits` times per fold;
cell 21 sets `n = test_size` and calls `forwardPass(y_test[i,:],...)` twice
per fold (once under the true parameters, once under the fitted ones). -/
def notebookCallSites (y : List (Fin 2)) : List (ℕ × ℕ) :=
  (List.range nbInits).map (fun _ => (nbN, y.length)) ++
    (List.range nbFolds).flatMap (fun i =>
      (List.range nbInits).map (fun _ => (trainSize, (yTrainRow y nbFolds i).length))) ++
    (List.range nbFolds).flatMap (fun i =>
      [(testSize, (yTestRow y nbFolds i).length),
       (testSize, (yTestRow y nbFolds i).length)])

/-- Mean of a list of rationals (`np.mean`). -/
def listMean (l : List ℚ) : ℚ := l.sum / l.length

/-- Trajectory of the spec-modelled EM fit (`lls` of `fit`, unpadded). -/
def fitTraj (y : List (Fin 2)) (tol : ℚ) (p : Params 2 2) : List ℚ :=
  (emRun y tol fitMaxiter p).1

/-- Final parameters of the spec-modelled EM fit. -/
def fitParams (y : List (Fin 2)) (tol : ℚ) (p : Params 2 2) : Params 2 2 :=
  (emRun y tol fitMaxiter p).2

/-- Cell 14: the trajectories of the full-data fits, one per initialization
(the `generate_params` draws are random, so they are passed explicitly).
`find_best_fit` is applied to the unpadded trajectories, so that "final
log-likelihood" means the last recorded likelihood, as in the spec. -/
def fullDataTrajs (y : List (Fin 2)) (tol : ℚ) (ip : List (Params 2 2)) :
    List (List ℚ) :=
  ip.map (fitTraj y tol)

/-- Cell 16: `bestix = find_best_fit(lls_all)` — computed once, from the
full-data trajectories. -/
def notebookBestix (y : List (Fin 2)) (tol : ℚ) (ip : List (Params 2 2)) : ℕ :=
  find_best_fit (fullDataTrajs y tol ip)

/-- All-zero parameters, used as the out-of-range default when indexing the
stored parameter arrays. -/
def zeroParams : Params 2 2 := ⟨fun _ _ => 0, fun _ _ => 0, fun _ => 0⟩

/-- One fold of the cross-validation phase: its training row, its test row,
and the `generate_params` draws used for its fits. -/
structure CVFold where
  ytrain : List (Fin 2)
  ytest : List (Fin 2)
  ip : List (Params 2 2)

/-- Cell 20: `A_all[i,j]`, `phi_all[i,j]` — the parameters fitted on fold
`f`'s training row from its `j`-th initialization (the per-fold
trajectories are discarded: `_, A_all[i,j,:,:], phi_all[i,j,:,:], pi0 = ...`). -/
def cvFitParams (f : CVFold) (tol : ℚ) (j : ℕ) : Params 2 2 :=
  fitParams f.ytrain tol (f.ip.getD j zeroParams)

/-- Cell 21: the held-out row `fit_ll`, as the notebook computes it —
every fold is evaluated with the parameters of the SAME initialization
index `bestix`, the one computed in cell 16 from the full-data fit. -/
def notebookFitLL (y : List (Fin 2)) (tol : ℚ) (fullIp : List (Params 2 2))
    (foldsData : List CVFold) : List ℚ :=
  foldsData.map (fun f =>
    (forwardPass (cvFitParams f tol (notebookBestix y tol fullIp)) f.ytest).1)

/-- Cell 21: the reported generalization score `np.mean(fit_ll)`. -/
def notebookScore (y : List (Fin 2)) (tol : ℚ) (fullIp : List (Params 2 2))
    (foldsData : List CVFold) : ℚ :=
  listMean (notebookFitLL y tol fullIp foldsData)

/-- Following the claim's words (NOT the notebook): for each fold, evaluate
the test row with the winning parameters *of that fold* — the
initialization whose final training log-likelihood on that fold is maximal,
ties to the lowest index. -/
def perFoldBestScore (tol : ℚ) (foldsData : List CVFold) : ℚ :=
  listMean (foldsData.map (fun f =>
    (forwardPass
      (cvFitParams f tol (find_best_fit (f.ip.map (fitTraj f.ytrain tol))))
      f.ytest).1))

/-! ### Concrete instances used by witnesses and counterexamples -/

/-- Uniform parameters: an exact EM fixed point on balanced data. -/
def pUnif : Params 2 2 := ⟨fun _ _ => 1/2, fun _ _ => 1/2, fun _ => 1/2⟩

/-- Degenerate diagonal parameters: zero likelihood on the sequence [0,1],
hence an EM fixed point through the starved-state policy. -/
def pDiag : Params 2 2 :=
  ⟨fun i j => if i = j then 1 else 0,
   fun k c => if (k : ℕ) = (c : ℕ) then 1 else 0, fun _ => 1/2⟩

/-- The cross-validation fold used by the C1 counterexample: training row
[0,1], test row [0,0], per-fold draws [pDiag, pUnif]. -/
def cexFold : CVFold := ⟨[0, 1], [0, 0], [pDiag, pUnif]⟩

/-! ### Latent-path machinery, used to settle the EM monotonicity claim.
A latent path for a sequence `c0 :: ys` is a vector of `ys.length + 1`
states; its weight is the joint probability of the path and the
observations.  The likelihood is the sum of the weights over all paths,
and the Baum-Welch numerators are the corresponding expected counts. -/

/-- Splitting a vector of length n+1 into its head and tail. -/
def consEquiv {α : Type} {n : ℕ} : α × Mathlib.Vector α n ≃ Mathlib.Vector α (n + 1) where
  toFun x := Mathlib.Vector.cons x.1 x.2
  invFun v := (v.head, v.tail)
  left_inv := by
    rintro ⟨a, v⟩
    simp
  right_inv := by
    intro v
    simp [Mathlib.Vector.cons_head_tail]

/-- Weight of the latent suffix path `z` over the remaining symbols `ys`,
starting from current state `k0`: the product of the transition and
emission probabilities along it. -/
def tailW {K C : ℕ} (p : Params K C) :
    (ys : List (Fin C)) → Fin K → Mathlib.Vector (Fin K) ys.length → ℚ
  | [], _, _ => 1
  | c :: rest, k0, z => p.A k0 z.head * p.phi z.head c * tailW p rest z.head z.tail

/-- Weight of the full latent path `z` for the sequence `c0 :: ys`:
π(z₁)·φ(z₁,y₁) times the weight of the remaining suffix. -/
def fullW {K C : ℕ} (p : Params K C) (c0 : Fin C) (ys : List (Fin C))
    (z : Mathlib.Vector (Fin K) (ys.length + 1)) : ℚ :=
  p.pi0 z.head * p.phi z.head c0 * tailW p ys z.head z.tail

/-- Number of i→j transitions along the suffix path (`k0` = current state). -/
def transCount {K C : ℕ} (i j : Fin K) :
    (ys : List (Fin C)) → Fin K → Mathlib.Vector (Fin K) ys.length → ℕ
  | [], _, _ => 0
  | _ :: rest, k0, z =>
    (if k0 = i ∧ z.head = j then 1 else 0) + transCount i j rest z.head z.tail

/-- Number of positions of the suffix at which state `k` emits symbol `cc`. -/
def emitCount {K C : ℕ} (k : Fin K) (cc : Fin C) :
    (ys : List (Fin C)) → Mathlib.Vector (Fin K) ys.length → ℕ
  | [], _ => 0
  | c :: rest, z => (if z.head = k ∧ c = cc then 1 else 0) + emitCount k cc rest z.tail

/-- i→j transition count of the full path. -/
def fullTransCount {K C : ℕ} (i j : Fin K) (ys : List (Fin C))
    (z : Mathlib.Vector (Fin K) (ys.length + 1)) : ℕ :=
  transCount i j ys z.head z.tail

/-- (state k, symbol cc) emission count of the full path for `c0 :: ys`. -/
def fullEmitCount {K C : ℕ} (k : Fin K) (cc : Fin C) (c0 : Fin C)
    (ys : List (Fin C)) (z : Mathlib.Vector (Fin K) (ys.length + 1)) : ℕ :=
  (if z.head = k ∧ c0 = cc then 1 else 0) + emitCount k cc ys z.tail

/-- Expected-count sum over suffix paths: Σ_z tailW(z)·(i→j transitions). -/
def sA {K C : ℕ} (p : Params K C) (i j : Fin K) (ys : List (Fin C))
    (k0 : Fin K) : ℚ :=
  ∑ z, tailW p ys k0 z * (transCount i j ys k0 z : ℚ)

/-- Expected-count sum over suffix paths: Σ_z tailW(z)·(k emits cc). -/
def sE {K C : ℕ} (p : Params K C) (k : Fin K) (cc : Fin C)
    (ys : List (Fin C)) (k0 : Fin K) : ℚ :=
  ∑ z, tailW p ys k0 z * (emitCount k cc ys z : ℚ)

/-- Unnormalized numerator of the Baum-Welch A-update:
Σₜ αₜ(i)·A(i,j)·φ(j,yₜ₊₁)·βₜ₊₁(j) over t = 1..T-1 (no division by the
likelihood). -/
def aNum {K C : ℕ} (p : Params K C) (i j : Fin K) :
    (Fin K → ℚ) → List (Fin C) → ℚ
  | _, [] => 0
  | a, c :: rest =>
    a i * p.A i j * p.phi j c * betaHd p rest j
      + aNum p i j (alphaStep p a c) rest

/-- Unnormalized denominator of the A-update: Σₜ αₜ(i)·βₜ(i) over
t = 1..T-1. -/
def aDen {K C : ℕ} (p : Params K C) (i : Fin K) :
    (Fin K → ℚ) → List (Fin C) → ℚ
  | _, [] => 0
  | a, c :: rest =>
    a i * betaHd p (c :: rest) i + aDen p i (alphaStep p a c) rest

/-- Unnormalized numerator of the φ-update: Σ_{t : yₜ = cc} αₜ(k)·βₜ(k)
over t = 1..T; `ccur` is the symbol at the current position. -/
def phiNum {K C : ℕ} (p : Params K C) (k : Fin K) (cc : Fin C) :
    (Fin K → ℚ) → Fin C → List (Fin C) → ℚ
  | a, ccur, [] => if ccur = cc then a k else 0
  | a, ccur, c :: rest =>
    (if ccur = cc then a k * betaHd p (c :: rest) k else 0)
      + phiNum p k cc (alphaStep p a c) c rest

/-- Unnormalized denominator of the φ-update: Σₜ αₜ(k)·βₜ(k) over
t = 1..T. -/
def phiDen {K C : ℕ} (p : Params K C) (k : Fin K) :
    (Fin K → ℚ) → List (Fin C) → ℚ
  | a, [] => a k
  | a, c :: rest => a k * betaHd p (c :: rest) k + phiDen p k (alphaStep p a c) rest

/-! ### Helper lemmas: the EM loop -/

theorem mStep_pi0 {K C : ℕ} (y : List (Fin C)) (p : Params K C) :
    (mStep y p).pi0 = p.pi0 := by
  cases y <;> rfl

theorem fitLoop_succ_none {K C : ℕ} (y : List (Fin C)) (tol : ℚ) (m : ℕ)
    (p : Params K C) (acc : List ℚ) :
    fitLoop y tol (m + 1) p acc none
      = fitLoop y tol m (mStep y p) (likelihood p y :: acc)
          (some (likelihood p y)) := rfl

theorem fitLoop_succ_stop {K C : ℕ} (y : List (Fin C)) (tol l0 : ℚ) (m : ℕ)
    (p : Params K C) (acc : List ℚ) (h : likelihood p y - l0 < tol) :
    fitLoop y tol (m + 1) p acc (some l0)
      = ((likelihood p y :: acc).reverse, p) := by
  simp [fitLoop, h]

theorem fitLoop_succ_go {K C : ℕ} (y : List (Fin C)) (tol l0 : ℚ) (m : ℕ)
    (p : Params K C) (acc : List ℚ) (h : ¬ likelihood p y - l0 < tol) :
    fitLoop y tol (m + 1) p acc (some l0)
      = fitLoop y tol m (mStep y p) (likelihood p y :: acc)
          (some (likelihood p y)) := by
  simp [fitLoop, h]

/-- At an exact EM fixed point, the loop records the same likelihood twice
and stops (any positive tolerance). -/
theorem emRun_fixed {K C : ℕ} (y : List (Fin C)) (tol : ℚ) (m : ℕ)
    (p : Params K C) (hfix : mStep y p = p) (htol : 0 < tol) :
    emRun y tol (m + 2) p = ([likelihood p y, likelihood p y], p) := by
  have h1 : emRun y tol (m + 2) p
      = fitLoop y tol (m + 1) (mStep y p) [likelihood p y]
          (some (likelihood p y)) := rfl
  rw [h1, hfix, fitLoop_succ_stop]
  · simp
  · simpa using htol

/-! ### Helper lemmas: concrete evaluations -/

theorem likelihood_unif_01 : likelihood pUnif [0, 1] = 1/4 := by
  simp [likelihood, alphaLast, forwardInit, alphaStep, pUnif, Fin.sum_univ_two]
  norm_num

theorem likelihood_diag_01 : likelihood pDiag [0, 1] = 0 := by
  simp [likelihood, alphaLast, forwardInit, alphaStep, pDiag, Fin.sum_univ_two]

theorem mStep_unif : mStep [0, 1] pUnif = pUnif := by
  ext i j
  · fin_cases i <;> fin_cases j <;>
      (simp [mStep, gammasA, xisA, betaHd, likelihood, alphaLast, forwardInit,
        alphaStep, pUnif, Fin.sum_univ_two]; try norm_num)
  · fin_cases i <;> fin_cases j <;>
      (simp [mStep, gammasA, xisA, betaHd, likelihood, alphaLast, forwardInit,
        alphaStep, pUnif, Fin.sum_univ_two]; try norm_num)
  · fin_cases i <;> simp [mStep, pUnif]

theorem mStep_diag : mStep [0, 1] pDiag = pDiag := by
  ext i j
  · fin_cases i <;> fin_cases j <;>
      (simp [mStep, gammasA, xisA, betaHd, likelihood, alphaLast, forwardInit,
        alphaStep, pDiag, Fin.sum_univ_two]; try norm_num)
  · fin_cases i <;> fin_cases j <;>
      (simp [mStep, gammasA, xisA, betaHd, likelihood, alphaLast, forwardInit,
        alphaStep, pDiag, Fin.sum_univ_two]; try norm_num)
  · fin_cases i <;> simp [mStep, pDiag]

theorem emRun_unif : emRun [0, 1] 1 250 pUnif = ([1/4, 1/4], pUnif) := by
  rw [show (250 : ℕ) = 248 + 2 by norm_num,
    emRun_fixed [0, 1] 1 248 pUnif mStep_unif (by norm_num), likelihood_unif_01]

theorem emRun_diag : emRun [0, 1] 1 250 pDiag = ([0, 0], pDiag) := by
  rw [show (250 : ℕ) = 248 + 2 by norm_num,
    emRun_fixed [0, 1] 1 248 pDiag mStep_diag (by norm_num), likelihood_diag_01]

theorem fitTraj_unif : fitTraj [0, 1] 1 pUnif = [1/4, 1/4] := by
  simp [fitTraj, fitMaxiter, emRun_unif]

theorem fitTraj_diag : fitTraj [0, 1] 1 pDiag = [0, 0] := by
  simp [fitTraj, fitMaxiter, emRun_diag]

theorem fitParams_unif : fitParams [0, 1] 1 pUnif = pUnif := by
  simp [fitParams, fitMaxiter, emRun_unif]

theorem fitParams_diag : fitParams [0, 1] 1 pDiag = pDiag := by
  simp [fitParams, fitMaxiter, emRun_diag]

theorem fp_diag_00 : (forwardPass pDiag [0, 0]).1 = 1/2 := by
  simp [forwardPass, fwStep, alphaStep, forwardInit, pDiag, Fin.sum_univ_two]
  try norm_num

theorem fp_unif_00 : (forwardPass pUnif [0, 0]).1 = 1/4 := by
  simp [forwardPass, fwStep, alphaStep, forwardInit, pUnif, Fin.sum_univ_two]
  try norm_num

theorem bestix_cex : notebookBestix [0, 1] 1 [pUnif, pDiag] = 0 := by
  simp [notebookBestix, fullDataTrajs, fitTraj_unif, fitTraj_diag,
    find_best_fit, bestIdx, bestAux, List.getLastD, List.getLast]
  try norm_num

theorem foldBest_cex :
    find_best_fit [fitTraj [0, 1] 1 pDiag, fitTraj [0, 1] 1 pUnif] = 1 := by
  simp [fitTraj_unif, fitTraj_diag,
    find_best_fit, bestIdx, bestAux, List.getLastD, List.getLast]
  try norm_num

theorem cexNotebookScore :
    notebookScore [0, 1] 1 [pUnif, pDiag] [cexFold, cexFold] = 1/2 := by
  simp [notebookScore, notebookFitLL, bestix_cex, cvFitParams, cexFold,
    fitParams_diag, fp_diag_00, listMean]
  try norm_num

theorem cexPerFoldScore : perFoldBestScore 1 [cexFold, cexFold] = 1/4 := by
  simp [perFoldBestScore, foldBest_cex, cvFitParams, cexFold,
    fitParams_unif, fp_unif_00, listMean]
  try norm_num

/-! ### Helper lemmas: the trajectory and π through the loop -/

theorem fitLoop_pi0 {K C : ℕ} (y : List (Fin C)) (tol : ℚ) :
    ∀ (fuel : ℕ) (p : Params K C) (acc : List ℚ) (prev : Option ℚ),
      ((fitLoop y tol fuel p acc prev).2).pi0 = p.pi0 := by
  intro fuel
  induction fuel with
  | zero => intro p acc prev; rfl
  | succ m ih =>
    intro p acc prev
    cases prev with
    | none =>
      rw [fitLoop_succ_none, ih, mStep_pi0]
    | some l0 =>
      by_cases h : likelihood p y - l0 < tol
      · rw [fitLoop_succ_stop y tol l0 m p acc h]
      · rw [fitLoop_succ_go y tol l0 m p acc h, ih, mStep_pi0]

theorem fitLoop_length_le {K C : ℕ} (y : List (Fin C)) (tol : ℚ) :
    ∀ (fuel : ℕ) (p : Params K C) (acc : List ℚ) (prev : Option ℚ),
      (fitLoop y tol fuel p acc prev).1.length ≤ acc.length + fuel := by
  intro fuel
  induction fuel with
  | zero => intro p acc prev; simp [fitLoop]
  | succ m ih =>
    intro p acc prev
    cases prev with
    | none =>
      rw [fitLoop_succ_none]
      have h := ih (mStep y p) (likelihood p y :: acc) (some (likelihood p y))
      simp only [List.length_cons] at h
      omega
    | some l0 =>
      by_cases h : likelihood p y - l0 < tol
      · rw [fitLoop_succ_stop y tol l0 m p acc h]
        simp
        try omega
      · rw [fitLoop_succ_go y tol l0 m p acc h]
        have h2 := ih (mStep y p) (likelihood p y :: acc) (some (likelihood p y))
        simp only [List.length_cons] at h2
        omega

theorem emRun_length_le {K C : ℕ} (y : List (Fin C)) (tol : ℚ) (fuel : ℕ)
    (p : Params K C) : (emRun y tol fuel p).1.length ≤ fuel := by
  have h := fitLoop_length_le y tol fuel p [] none
  simpa [emRun] using h

theorem hmmFit_length {K C : ℕ} (m : HMM) (y : List (Fin C)) (p : Params K C)
    (tol : ℚ) : (HMM.fit m y p tol).1.length = 250 := by
  have h := emRun_length_le (y.take m.n) tol fitMaxiter p
  unfold HMM.fit
  simp only [List.length_append, List.length_replicate]
  unfold fitMaxiter at h ⊢
  omega

theorem hmmFit_take {K C : ℕ} (m : HMM) (y : List (Fin C)) (p : Params K C)
    (tol : ℚ) :
    (HMM.fit m y p tol).1.take (emRun (y.take m.n) tol fitMaxiter p).1.length
      = (emRun (y.take m.n) tol fitMaxiter p).1 := by
  unfold HMM.fit
  exact List.take_left _ _

/-! ### Helper lemmas: the scaled Engine against the plain recursion -/

theorem alphaStep_smul {K C : ℕ} (p : Params K C) (t : ℚ) (v : Fin K → ℚ)
    (c : Fin C) (k : Fin K) :
    alphaStep p (fun i => t * v i) c k = t * alphaStep p v c k := by
  unfold alphaStep
  have h : ∑ i, t * v i * p.A i k = t * ∑ i, v i * p.A i k := by
    rw [Finset.mul_sum]
    exact Finset.sum_congr rfl (fun i _ => by ring)
  rw [h]
  ring

theorem alphaStep_nonneg {K C : ℕ} (p : Params K C) (hp : p.nonneg)
    (v : Fin K → ℚ) (hv : ∀ k, 0 ≤ v k) (c : Fin C) (k : Fin K) :
    0 ≤ alphaStep p v c k :=
  mul_nonneg (hp.2.1 k c)
    (Finset.sum_nonneg fun i _ => mul_nonneg (hv i) (hp.1 i k))

theorem foldl_alphaStep_nonneg {K C : ℕ} (p : Params K C) (hp : p.nonneg) :
    ∀ (rest : List (Fin C)) (a : Fin K → ℚ), (∀ k, 0 ≤ a k) →
      ∀ k, 0 ≤ List.foldl (alphaStep p) a rest k := by
  intro rest
  induction rest with
  | nil => intro a ha k; exact ha k
  | cons c rest ih =>
    intro a ha k
    simp only [List.foldl_cons]
    exact ih (alphaStep p a c) (fun j => alphaStep_nonneg p hp a ha c j) k

theorem alphaLast_nonneg {K C : ℕ} (p : Params K C) (hp : p.nonneg)
    (y : List (Fin C)) (k : Fin K) : 0 ≤ alphaLast p y k := by
  cases y with
  | nil => exact hp.2.2 k
  | cons c rest =>
    exact foldl_alphaStep_nonneg p hp rest (forwardInit p c)
      (fun j => mul_nonneg (hp.2.2 j) (hp.2.1 j c)) k

theorem likelihood_nonneg {K C : ℕ} (p : Params K C) (hp : p.nonneg)
    (y : List (Fin C)) : 0 ≤ likelihood p y :=
  Finset.sum_nonneg fun k _ => alphaLast_nonneg p hp y k

/-- The central invariant relating the scaled Engine state to the plain
forward recursion: the running likelihood times the normalized vector is the
plain forward vector, the running likelihood is its total mass, and the
normalized vector is nonnegative. -/
theorem fw_fold_inv {K C : ℕ} (p : Params K C) (hp : p.nonneg) :
    ∀ (rest : List (Fin C)) (st : ℚ × (Fin K → ℚ)) (a : Fin K → ℚ),
      (∀ k, st.1 * st.2 k = a k) → st.1 = ∑ k, a k → (∀ k, 0 ≤ st.2 k) →
      (∀ k, (List.foldl (fwStep p) st rest).1 * (List.foldl (fwStep p) st rest).2 k
          = List.foldl (alphaStep p) a rest k) ∧
      (List.foldl (fwStep p) st rest).1
          = ∑ k, List.foldl (alphaStep p) a rest k ∧
      (∀ k, 0 ≤ (List.foldl (fwStep p) st rest).2 k) := by
  intro rest
  induction rest with
  | nil => intro st a h1 h2 h3; exact ⟨h1, h2, h3⟩
  | cons c rest ih =>
    intro st a h1 h2 h3
    simp only [List.foldl_cons]
    have ha : a = fun i => st.1 * st.2 i := funext fun k => (h1 k).symm
    have hbnn : ∀ k, 0 ≤ alphaStep p st.2 c k :=
      fun k => alphaStep_nonneg p hp st.2 h3 c k
    have hsnn : 0 ≤ ∑ k, alphaStep p st.2 c k :=
      Finset.sum_nonneg fun k _ => hbnn k
    apply ih
    · intro k
      show st.1 * (∑ j, alphaStep p st.2 c j) * (alphaStep p st.2 c k / ∑ j, alphaStep p st.2 c j)
          = alphaStep p a c k
      rw [ha, alphaStep_smul]
      by_cases hs : (∑ j, alphaStep p st.2 c j) = 0
      · have hz : alphaStep p st.2 c k = 0 := by
          have := (Finset.sum_eq_zero_iff_of_nonneg
            (fun j _ => hbnn j)).mp hs k (Finset.mem_univ k)
          exact this
        rw [hs, hz]
        ring
      · field_simp
        ring
    · show st.1 * (∑ j, alphaStep p st.2 c j) = ∑ k, alphaStep p a c k
      rw [ha]
      have h : ∀ k, alphaStep p (fun i => st.1 * st.2 i) c k
          = st.1 * alphaStep p st.2 c k := fun k => alphaStep_smul p st.1 st.2 c k
      calc st.1 * (∑ j, alphaStep p st.2 c j)
          = ∑ j, st.1 * alphaStep p st.2 c j := by rw [Finset.mul_sum]
        _ = ∑ k, alphaStep p (fun i => st.1 * st.2 i) c k := by
            exact Finset.sum_congr rfl (fun j _ => (h j).symm)
    · intro k
      exact div_nonneg (hbnn k) hsnn

/-! ### Helper lemmas: posteriors and the M-step -/

theorem gammasA_length {K C : ℕ} (p : Params K C) (L : ℚ) :
    ∀ (ys : List (Fin C)) (a : Fin K → ℚ),
      (gammasA p L a ys).length = ys.length + 1 := by
  intro ys
  induction ys with
  | nil => intro a; rfl
  | cons c rest ih => intro a; simp [gammasA, ih]

theorem gammasA_ne_nil {K C : ℕ} (p : Params K C) (L : ℚ) (a : Fin K → ℚ)
    (ys : List (Fin C)) : gammasA p L a ys ≠ [] := by
  cases ys <;> simp [gammasA]

theorem betaHd_nonneg {K C : ℕ} (p : Params K C) (hp : p.nonneg) :
    ∀ (ys : List (Fin C)) (k : Fin K), 0 ≤ betaHd p ys k := by
  intro ys
  induction ys with
  | nil => intro k; simp [betaHd]
  | cons c rest ih =>
    intro k
    have : betaHd p (c :: rest) k
        = ∑ j, p.A k j * p.phi j c * betaHd p rest j := rfl
    rw [this]
    exact Finset.sum_nonneg fun j _ =>
      mul_nonneg (mul_nonneg (hp.1 k j) (hp.2.1 j c)) (ih j)

theorem gammasA_mem_nonneg {K C : ℕ} (p : Params K C) (hp : p.nonneg)
    (L : ℚ) (hL : 0 ≤ L) :
    ∀ (ys : List (Fin C)) (a : Fin K → ℚ), (∀ k, 0 ≤ a k) →
      ∀ g ∈ gammasA p L a ys, ∀ k, 0 ≤ g k := by
  intro ys
  induction ys with
  | nil =>
    intro a ha g hg k
    simp only [gammasA, List.mem_singleton] at hg
    subst hg
    exact div_nonneg (mul_nonneg (ha k) (betaHd_nonneg p hp [] k)) hL
  | cons c rest ih =>
    intro a ha g hg k
    simp only [gammasA, List.mem_cons] at hg
    rcases hg with hg | hg
    · subst hg
      exact div_nonneg (mul_nonneg (ha k) (betaHd_nonneg p hp (c :: rest) k)) hL
    · exact ih (alphaStep p a c)
        (fun j => alphaStep_nonneg p hp a ha c j) g hg k

theorem xisA_mem_nonneg {K C : ℕ} (p : Params K C) (hp : p.nonneg)
    (L : ℚ) (hL : 0 ≤ L) :
    ∀ (ys : List (Fin C)) (a : Fin K → ℚ), (∀ k, 0 ≤ a k) →
      ∀ x ∈ xisA p L a ys, ∀ i j, 0 ≤ x i j := by
  intro ys
  induction ys with
  | nil => intro a ha x hx; simp [xisA] at hx
  | cons c rest ih =>
    intro a ha x hx i j
    simp only [xisA, List.mem_cons] at hx
    rcases hx with hx | hx
    · subst hx
      exact div_nonneg
        (mul_nonneg (mul_nonneg (mul_nonneg (ha i) (hp.1 i j)) (hp.2.1 j c))
          (betaHd_nonneg p hp rest j)) hL
    · exact ih (alphaStep p a c)
        (fun k => alphaStep_nonneg p hp a ha c k) x hx i j

/-- A finite sum of list sums is the list sum of the finite sums. -/
theorem finsetSum_listSum_swap {α : Type} {n : ℕ} (l : List α)
    (f : Fin n → α → ℚ) :
    ∑ j, (l.map (f j)).sum = (l.map (fun x => ∑ j, f j x)).sum := by
  induction l with
  | nil => simp
  | cons x xs ih => simp [Finset.sum_add_distrib, ih]

/-- Row sums of the transition posteriors collapse to the occupation
posteriors of positions 1..T-1: Σⱼ ξₜ(i,j) = γₜ(i). -/
theorem xisA_rowsum {K C : ℕ} (p : Params K C) (L : ℚ) :
    ∀ (ys : List (Fin C)) (a : Fin K → ℚ) (i : Fin K),
      ((xisA p L a ys).map (fun x => ∑ j, x i j)).sum
        = ((gammasA p L a ys).dropLast.map (fun g => g i)).sum := by
  intro ys
  induction ys with
  | nil => intro a i; simp [xisA, gammasA]
  | cons c rest ih =>
    intro a i
    have hx : xisA p L a (c :: rest)
        = (fun i j => a i * p.A i j * p.phi j c * betaHd p rest j / L) ::
            xisA p L (alphaStep p a c) rest := rfl
    have hg : gammasA p L a (c :: rest)
        = (fun k => a k * betaHd p (c :: rest) k / L) ::
            gammasA p L (alphaStep p a c) rest := rfl
    rw [hx, hg]
    rcases hgl : gammasA p L (alphaStep p a c) rest with _ | ⟨g1, gs⟩
    · exact absurd hgl (gammasA_ne_nil p L (alphaStep p a c) rest)
    · rw [List.dropLast_cons₂]
      simp only [List.map_cons, List.sum_cons, ← hgl]
      have hhead : (∑ j, a i * p.A i j * p.phi j c * betaHd p rest j / L)
          = a i * betaHd p (c :: rest) i / L := by
        have h1 : ∀ j ∈ Finset.univ,
            a i * p.A i j * p.phi j c * betaHd p rest j / L
              = a i * (p.A i j * p.phi j c * betaHd p rest j) / L :=
          fun j _ => by ring
        rw [Finset.sum_congr rfl h1, ← Finset.sum_div, ← Finset.mul_sum]
        have h2 : betaHd p (c :: rest) i
            = ∑ j, p.A i j * p.phi j c * betaHd p rest j := rfl
        rw [h2]
      rw [hhead, ih (alphaStep p a c) i]

/-- Summing the per-symbol filtered sums over all symbols recovers the
total sum. -/
theorem filter_partition {K C : ℕ} (l : List (Fin C × (Fin K → ℚ))) (k : Fin K) :
    ∑ c, ((l.filter (fun t => decide (t.1 = c))).map (fun t => t.2 k)).sum
      = (l.map (fun t => t.2 k)).sum := by
  induction l with
  | nil => simp
  | cons x xs ih =>
    simp only [List.filter_cons, decide_eq_true_eq]
    have h : ∀ c : Fin C,
        ((if x.1 = c then x :: xs.filter (fun t => decide (t.1 = c))
          else xs.filter (fun t => decide (t.1 = c))).map (fun t => t.2 k)).sum
          = ((xs.filter (fun t => decide (t.1 = c))).map (fun t => t.2 k)).sum
            + (if x.1 = c then x.2 k else 0) := by
      intro c
      split
      · simp [List.sum_cons]; ring
      · simp
    rw [Finset.sum_congr rfl (fun c _ => h c), Finset.sum_add_distrib, ih,
      Finset.sum_ite_eq]
    simp [List.sum_cons]
    ring

theorem mStep_cons_A {K C : ℕ} (c0 : Fin C) (rest : List (Fin C))
    (p : Params K C) (i j : Fin K) :
    (mStep (c0 :: rest) p).A i j
      = (if ((gammasA p (likelihood p (c0 :: rest)) (forwardInit p c0)
              rest).dropLast.map (fun g => g i)).sum = 0
         then p.A i j
         else ((xisA p (likelihood p (c0 :: rest)) (forwardInit p c0)
                rest).map (fun x => x i j)).sum
           / ((gammasA p (likelihood p (c0 :: rest)) (forwardInit p c0)
                rest).dropLast.map (fun g => g i)).sum) := rfl

theorem mStep_cons_phi {K C : ℕ} (c0 : Fin C) (rest : List (Fin C))
    (p : Params K C) (k : Fin K) (c : Fin C) :
    (mStep (c0 :: rest) p).phi k c
      = (if ((gammasA p (likelihood p (c0 :: rest)) (forwardInit p c0)
              rest).map (fun g => g k)).sum = 0
         then p.phi k c
         else ((((c0 :: rest).zip (gammasA p (likelihood p (c0 :: rest))
                (forwardInit p c0) rest)).filter
                  (fun t => decide (t.1 = c))).map (fun t => t.2 k)).sum
           / ((gammasA p (likelihood p (c0 :: rest)) (forwardInit p c0)
                rest).map (fun g => g k)).sum) := rfl

/-- The Baum-Welch M-step preserves validity of the parameters: every row
of the re-estimated A and φ is again a probability distribution, and π is
untouched. -/
theorem mStep_valid {K C : ℕ} (y : List (Fin C)) (p : Params K C)
    (h : p.valid) : (mStep y p).valid := by
  cases y with
  | nil => exact h
  | cons c0 rest =>
    have hp := h.toNonneg
    have hL : 0 ≤ likelihood p (c0 :: rest) := likelihood_nonneg p hp _
    have ha0 : ∀ k, 0 ≤ forwardInit p c0 k :=
      fun k => mul_nonneg (hp.2.2 k) (hp.2.1 k c0)
    have hγnn : ∀ g ∈ gammasA p (likelihood p (c0 :: rest))
        (forwardInit p c0) rest, ∀ k, 0 ≤ g k :=
      gammasA_mem_nonneg p hp _ hL rest _ ha0
    have hξnn : ∀ x ∈ xisA p (likelihood p (c0 :: rest))
        (forwardInit p c0) rest, ∀ i j, 0 ≤ x i j :=
      xisA_mem_nonneg p hp _ hL rest _ ha0
    refine ⟨fun i => ⟨fun j => ?_, ?_⟩, fun k => ⟨fun c => ?_, ?_⟩, h.2.2⟩
    · -- entries of the A row are nonnegative
      rw [mStep_cons_A]
      by_cases hD : ((gammasA p (likelihood p (c0 :: rest)) (forwardInit p c0)
          rest).dropLast.map (fun g => g i)).sum = 0
      · rw [if_pos hD]; exact (h.1 i).1 j
      · rw [if_neg hD]
        refine div_nonneg ?_ ?_
        · refine List.sum_nonneg ?_
          intro q hq
          rcases List.mem_map.mp hq with ⟨x, hx, rfl⟩
          exact hξnn x hx i j
        · refine List.sum_nonneg ?_
          intro q hq
          rcases List.mem_map.mp hq with ⟨g, hg, rfl⟩
          exact hγnn g ((List.dropLast_sublist _).subset hg) i
    · -- the A row sums to 1
      by_cases hD : ((gammasA p (likelihood p (c0 :: rest)) (forwardInit p c0)
          rest).dropLast.map (fun g => g i)).sum = 0
      · calc ∑ j, (mStep (c0 :: rest) p).A i j
            = ∑ j, p.A i j :=
              Finset.sum_congr rfl fun j _ => by rw [mStep_cons_A, if_pos hD]
          _ = 1 := (h.1 i).2
      · calc ∑ j, (mStep (c0 :: rest) p).A i j
            = ∑ j, ((xisA p (likelihood p (c0 :: rest)) (forwardInit p c0)
                rest).map (fun x => x i j)).sum
              / ((gammasA p (likelihood p (c0 :: rest)) (forwardInit p c0)
                rest).dropLast.map (fun g => g i)).sum :=
              Finset.sum_congr rfl fun j _ => by rw [mStep_cons_A, if_neg hD]
          _ = (∑ j, ((xisA p (likelihood p (c0 :: rest)) (forwardInit p c0)
                rest).map (fun x => x i j)).sum)
              / ((gammasA p (likelihood p (c0 :: rest)) (forwardInit p c0)
                rest).dropLast.map (fun g => g i)).sum :=
              (Finset.sum_div _ _ _).symm
          _ = 1 := by
              rw [finsetSum_listSum_swap
                (xisA p (likelihood p (c0 :: rest)) (forwardInit p c0) rest)
                (fun j x => x i j)]
              rw [xisA_rowsum p (likelihood p (c0 :: rest)) rest
                (forwardInit p c0) i]
              exact div_self hD
    · -- entries of the φ row are nonnegative
      rw [mStep_cons_phi]
      by_cases hD : ((gammasA p (likelihood p (c0 :: rest)) (forwardInit p c0)
          rest).map (fun g => g k)).sum = 0
      · rw [if_pos hD]; exact (h.2.1 k).1 c
      · rw [if_neg hD]
        refine div_nonneg ?_ ?_
        · refine List.sum_nonneg ?_
          intro q hq
          rcases List.mem_map.mp hq with ⟨t, ht, rfl⟩
          exact hγnn t.2 (List.of_mem_zip (List.mem_of_mem_filter ht)).2 k
        · refine List.sum_nonneg ?_
          intro q hq
          rcases List.mem_map.mp hq with ⟨g, hg, rfl⟩
          exact hγnn g hg k
    · -- the φ row sums to 1
      by_cases hD : ((gammasA p (likelihood p (c0 :: rest)) (forwardInit p c0)
          rest).map (fun g => g k)).sum = 0
      · calc ∑ c, (mStep (c0 :: rest) p).phi k c
            = ∑ c, p.phi k c :=
              Finset.sum_congr rfl fun c _ => by rw [mStep_cons_phi, if_pos hD]
          _ = 1 := (h.2.1 k).2
      · have hlen : (gammasA p (likelihood p (c0 :: rest)) (forwardInit p c0)
            rest).length ≤ (c0 :: rest).length := by
          rw [gammasA_length]; simp
        have hsnd : ((c0 :: rest).zip (gammasA p (likelihood p (c0 :: rest))
            (forwardInit p c0) rest)).map Prod.snd
              = gammasA p (likelihood p (c0 :: rest)) (forwardInit p c0) rest :=
          List.map_snd_zip _ _ hlen
        calc ∑ c, (mStep (c0 :: rest) p).phi k c
            = ∑ c, ((((c0 :: rest).zip (gammasA p (likelihood p (c0 :: rest))
                (forwardInit p c0) rest)).filter
                  (fun t => decide (t.1 = c))).map (fun t => t.2 k)).sum
              / ((gammasA p (likelihood p (c0 :: rest)) (forwardInit p c0)
                rest).map (fun g => g k)).sum :=
              Finset.sum_congr rfl fun c _ => by rw [mStep_cons_phi, if_neg hD]
          _ = (∑ c, ((((c0 :: rest).zip (gammasA p (likelihood p (c0 :: rest))
                (forwardInit p c0) rest)).filter
                  (fun t => decide (t.1 = c))).map (fun t => t.2 k)).sum)
              / ((gammasA p (likelihood p (c0 :: rest)) (forwardInit p c0)
                rest).map (fun g => g k)).sum :=
              (Finset.sum_div _ _ _).symm
          _ = 1 := by
              rw [filter_partition]
              have hmm : (((c0 :: rest).zip (gammasA p (likelihood p
                  (c0 :: rest)) (forwardInit p c0) rest)).map
                    (fun t => t.2 k)).sum
                  = ((gammasA p (likelihood p (c0 :: rest)) (forwardInit p c0)
                    rest).map (fun g => g k)).sum := by
                conv_rhs => rw [← hsnd]
                rw [List.map_map]
                rfl
              rw [hmm]
              exact div_self hD

theorem fitLoop_valid {K C : ℕ} (y : List (Fin C)) (tol : ℚ) :
    ∀ (fuel : ℕ) (p : Params K C) (acc : List ℚ) (prev : Option ℚ),
      p.valid → ((fitLoop y tol fuel p acc prev).2).valid := by
  intro fuel
  induction fuel with
  | zero => intro p acc prev h; exact h
  | succ m ih =>
    intro p acc prev h
    cases prev with
    | none => rw [fitLoop_succ_none]; exact ih _ _ _ (mStep_valid y p h)
    | some l0 =>
      by_cases hc : likelihood p y - l0 < tol
      · rw [fitLoop_succ_stop y tol l0 m p acc hc]; exact h
      · rw [fitLoop_succ_go y tol l0 m p acc hc]; exact ih _ _ _ (mStep_valid y p h)

/-! ### Helper lemmas: first-maximum selection -/

theorem listGetD_get? (l : List ℚ) (n : ℕ) : l.getD n 0 = (l.get? n).getD 0 := by
  simp [List.getD]

theorem bestAux_spec (l : List ℚ) :
    ∀ (xs : List ℚ) (i : ℕ) (b : ℕ × ℚ),
      l.drop i = xs → i ≤ l.length → b.1 < i → b.2 = l.getD b.1 0 →
      (∀ t, t < i → l.getD t 0 ≤ b.2) →
      (∀ t, t < b.1 → l.getD t 0 < b.2) →
      (bestAux xs i b).1 < l.length ∧
      (bestAux xs i b).2 = l.getD (bestAux xs i b).1 0 ∧
      (∀ t, t < l.length → l.getD t 0 ≤ (bestAux xs i b).2) ∧
      (∀ t, t < (bestAux xs i b).1 → l.getD t 0 < (bestAux xs i b).2) := by
  intro xs
  induction xs with
  | nil =>
    intro i b hxs hi hb1 hb2 hle hlt
    have hlen : l.length ≤ i := List.drop_eq_nil_iff.mp hxs
    have hieq : i = l.length := le_antisymm hi hlen
    exact ⟨show b.1 < l.length by omega, hb2, fun t ht => hle t (by omega), hlt⟩
  | cons x xs' ih =>
    intro i b hxs hi hb1 hb2 hle hlt
    have hi2 : i < l.length := by
      by_contra hq
      push_neg at hq
      rw [List.drop_eq_nil_of_le hq] at hxs
      simp at hxs
    have hx : l.getD i 0 = x := by
      have h1 : (l.drop i).head? = some x := by rw [hxs]; rfl
      rw [List.head?_drop] at h1
      simp [List.getD, h1]
    have hdrop : l.drop (i + 1) = xs' := by
      have h1 : (l.drop i).tail = l.drop (i + 1) := List.tail_drop l i
      rw [hxs] at h1
      exact h1.symm
    have hstep : bestAux (x :: xs') i b
        = bestAux xs' (i + 1) (if b.2 < x then (i, x) else b) := rfl
    rw [hstep]
    by_cases hbx : b.2 < x
    · rw [if_pos hbx]
      refine ih (i + 1) (i, x) hdrop (by omega) (by omega) (by exact hx.symm) ?_ ?_
      · intro t ht
        rcases Nat.lt_succ_iff_lt_or_eq.mp ht with h | h
        · exact le_trans (hle t h) (le_of_lt hbx)
        · subst h
          exact le_of_eq hx
      · intro t ht
        exact lt_of_le_of_lt (hle t ht) hbx
    · rw [if_neg hbx]
      refine ih (i + 1) b hdrop (by omega) (by omega) hb2 ?_ hlt
      intro t ht
      rcases Nat.lt_succ_iff_lt_or_eq.mp ht with h | h
      · exact hle t h
      · subst h
        rw [hx]
        exact not_lt.mp hbx

theorem bestIdx_spec (l : List ℚ) (hl : l ≠ []) :
    bestIdx l < l.length ∧
    (∀ t, t < l.length → l.getD t 0 ≤ l.getD (bestIdx l) 0) ∧
    (∀ t, t < bestIdx l → l.getD t 0 < l.getD (bestIdx l) 0) := by
  cases l with
  | nil => exact absurd rfl hl
  | cons v vs =>
    have h := bestAux_spec (v :: vs) vs 1 (0, v) rfl (by simp) (by omega)
      (by simp [List.getD]) ?_ ?_
    · refine ⟨h.1, ?_, ?_⟩
      · intro t ht
        have h2 := h.2.2.1 t ht
        rwa [h.2.1] at h2
      · intro t ht
        have h2 := h.2.2.2 t ht
        rwa [h.2.1] at h2
    · intro t ht
      have ht0 : t = 0 := by omega
      subst ht0
      simp [List.getD]
    · intro t ht
      omega

theorem getD_map_final :
    ∀ (lls : List (List ℚ)) (i : ℕ), i < lls.length →
      (lls.map (fun l => l.getLastD 0)).getD i 0 = (lls.getD i []).getLastD 0 := by
  intro lls
  induction lls with
  | nil => intro i h; simp at h
  | cons l ls ih =>
    intro i h
    cases i with
    | zero => rfl
    | succ n =>
      simp only [List.map_cons, List.getD_cons_succ]
      exact ih n (by simpa using h)

/-- `find_best_fit` picks the least index whose final log-likelihood is
maximal among the given trajectories. -/
theorem find_best_fit_least_argmax (lls : List (List ℚ)) (h : lls ≠ []) :
    find_best_fit lls < lls.length ∧
    (∀ i, i < lls.length → finalLL lls i ≤ finalLL lls (find_best_fit lls)) ∧
    (∀ i, i < find_best_fit lls → finalLL lls i < finalLL lls (find_best_fit lls)) := by
  have hmap : lls.map (fun l => l.getLastD 0) ≠ [] := by simpa using h
  have h2 := bestIdx_spec _ hmap
  rw [List.length_map] at h2
  have hb : find_best_fit lls = bestIdx (lls.map (fun l => l.getLastD 0)) := rfl
  refine ⟨by rw [hb]; exact h2.1, ?_, ?_⟩
  · intro i hi
    have h3 := h2.2.1 i hi
    rwa [getD_map_final lls i hi, getD_map_final lls _ h2.1] at h3
  · intro i hi
    have h3 := h2.2.2 i hi
    rwa [getD_map_final lls i (lt_trans hi h2.1), getD_map_final lls _ h2.1] at h3

/-! ### Helper lemmas: the k-fold split -/

theorem foldStart_add_len_le (n k i : ℕ) (hik : i < k) :
    foldStart n k i + foldLen n k i ≤ n := by
  unfold foldStart foldLen
  have hmod : k * (n / k) + n % k = n := Nat.div_add_mod n k
  by_cases h : i < n % k
  · rw [min_eq_left (le_of_lt h), if_pos h]
    have h1 : (i + 1) * (n / k) ≤ k * (n / k) :=
      Nat.mul_le_mul_right _ (by omega)
    have h2 : i + 1 ≤ n % k := h
    calc i * (n / k) + i + (n / k + 1)
        = (i + 1) * (n / k) + (i + 1) := by ring
      _ ≤ k * (n / k) + n % k := by omega
      _ = n := hmod
  · rw [min_eq_right (by omega), if_neg h]
    have h1 : (i + 1) * (n / k) ≤ k * (n / k) :=
      Nat.mul_le_mul_right _ (by omega)
    calc i * (n / k) + n % k + (n / k + 0)
        = (i + 1) * (n / k) + n % k := by ring
      _ ≤ k * (n / k) + n % k := by omega
      _ = n := hmod

theorem kfoldTestIdx_length (n k i : ℕ) :
    (kfoldTestIdx n k i).length = foldLen n k i := by
  simp [kfoldTestIdx]

theorem kfoldTrainIdx_length (n k i : ℕ) (hik : i < k) :
    (kfoldTrainIdx n k i).length = n - foldLen n k i := by
  have h := foldStart_add_len_le n k i hik
  simp only [kfoldTrainIdx, List.length_append, List.length_range,
    List.length_drop]
  omega

/-- The fixed-width fold assembly of notebook cell 19 matches the KFold
output exactly when `k` divides `n`. -/
theorem kfold_sizes_iff (n k : ℕ) (hk : 0 < k) :
    (∀ i, i < k → (kfoldTestIdx n k i).length = n / k ∧
        (kfoldTrainIdx n k i).length = n - n / k) ↔ k ∣ n := by
  constructor
  · intro h
    have h0 := (h 0 hk).1
    rw [kfoldTestIdx_length] at h0
    unfold foldLen at h0
    by_cases hr : 0 < n % k
    · rw [if_pos hr] at h0
      omega
    · exact Nat.dvd_of_mod_eq_zero (by omega)
  · intro hdvd i hik
    have hr : n % k = 0 := by
      obtain ⟨m, rfl⟩ := hdvd
      exact Nat.mul_mod_right k m
    constructor
    · rw [kfoldTestIdx_length]
      unfold foldLen
      rw [hr]
      simp
    · rw [kfoldTrainIdx_length n k i hik]
      unfold foldLen
      rw [hr]
      simp

/-! ### Claim theorems -/

/-- Claim C2, counterexample: two Engine calls with identical explicit
arguments (sequence [0,1] and uniform parameters) but different values of
the model object's mutable field `n` return different log-likelihoods, so
the Engine is not a pure function of its explicit arguments alone. -/
theorem C2_counterexample :
    (HMM.forwardPass ⟨1⟩ [0, 1] pUnif).1 = 1/2 ∧
    (HMM.forwardPass ⟨2⟩ [0, 1] pUnif).1 = 1/4 ∧
    (HMM.forwardPass ⟨1⟩ [0, 1] pUnif).1 ≠ (HMM.forwardPass ⟨2⟩ [0, 1] pUnif).1 := by
  have h1 : (HMM.forwardPass ⟨1⟩ [0, 1] pUnif).1 = 1/2 := by
    simp [HMM.forwardPass, engineForward, forwardPass, fwStep, alphaStep,
      forwardInit, pUnif, Fin.sum_univ_two]
    try norm_num
  have h2 : (HMM.forwardPass ⟨2⟩ [0, 1] pUnif).1 = 1/4 := by
    simp [HMM.forwardPass, engineForward, forwardPass, fwStep, alphaStep,
      forwardInit, pUnif, Fin.sum_univ_two]
    try norm_num
  refine ⟨h1, h2, ?_⟩
  rw [h1, h2]
  norm_num

/-- Claim C2, amended: the Engine mutates nothing and is a deterministic
function of the explicit arguments TOGETHER with the model object's mutable
field `n`; whenever `n` equals the length of the sequence argument — the
discipline the notebook maintains (see C9) — the method call coincides with
the pure Engine of (sequence, A, φ, π). -/
theorem C2_forwardPass_pure_given_n {K C : ℕ} (m : HMM) (y : List (Fin C))
    (p : Params K C) (h : m.n = y.length) :
    HMM.forwardPass m y p = forwardPass p y := by
  unfold HMM.forwardPass engineForward
  rw [h, List.take_length]

/-- Witness for C2's amended theorem at `n = 2`, `y = [0,1]`. -/
theorem C2_forwardPass_pure_given_n_witness :
    HMM.forwardPass ⟨2⟩ [0, 1] pUnif = forwardPass pUnif [0, 1] :=
  C2_forwardPass_pure_given_n ⟨2⟩ [0, 1] pUnif rfl

/-- Claim C4: `find_best_fit` returns an in-range index whose final
log-likelihood (last entry of its trajectory) is maximal, and every
strictly smaller index has a strictly smaller final log-likelihood — i.e.
ties are broken by the lowest initialization index. -/
theorem C4_find_best_fit_selects (lls : List (List ℚ)) (h : lls ≠ []) :
    find_best_fit lls < lls.length ∧
    (∀ i, i < lls.length → finalLL lls i ≤ finalLL lls (find_best_fit lls)) ∧
    (∀ i, i < find_best_fit lls →
      finalLL lls i < finalLL lls (find_best_fit lls)) :=
  find_best_fit_least_argmax lls h

/-- Witness for C4 on a concrete trajectory matrix with a tie: the winner
is the first initialization attaining the maximal final value. -/
theorem C4_find_best_fit_selects_witness :
    find_best_fit [[0, 1/2], [1/2, 1], [1]] < 3 ∧
    (∀ i, i < 3 → finalLL [[0, 1/2], [1/2, 1], [1]] i
      ≤ finalLL [[0, 1/2], [1/2, 1], [1]]
          (find_best_fit [[0, 1/2], [1/2, 1], [1]])) ∧
    (∀ i, i < find_best_fit [[0, 1/2], [1/2, 1], [1]] →
      finalLL [[0, 1/2], [1/2, 1], [1]] i
        < finalLL [[0, 1/2], [1/2, 1], [1]]
            (find_best_fit [[0, 1/2], [1/2, 1], [1]])) :=
  C4_find_best_fit_selects [[0, 1/2], [1/2, 1], [1]] (by simp)

/-- Claim C5, counterexample: on [0,1] from uniform parameters with
tolerance 1, EM converges after 2 iterations (the spec-words trajectory
`emRun` has 2 entries), yet the `fit` row returned to the notebook has
fixed length 250 — the trajectory length is NOT the number of iterations
actually run. -/
theorem C5_counterexample :
    (HMM.fit ⟨2⟩ [0, 1] pUnif 1).1.length = 250 ∧
    (emRun ((([0, 1] : List (Fin 2))).take (2 : ℕ)) 1 fitMaxiter pUnif).1.length = 2 ∧
    (250 : ℕ) ≠ 2 := by
  refine ⟨hmmFit_length ⟨2⟩ [0, 1] pUnif 1, ?_, by norm_num⟩
  have ht : (([0, 1] : List (Fin 2))).take (2 : ℕ) = [0, 1] := rfl
  rw [ht]
  simp [fitMaxiter, emRun_unif]

/-- Claim C5, amended: `fit` always returns a trajectory row of fixed width
250 (the iteration budget) — as the notebook's whole-row assignment
`lls_all[i,:] = fit(...)` requires; its prefix of length equal to the number
of iterations actually run is the spec's unpadded trajectory (`emRun`),
which never exceeds the budget. -/
theorem C5_fit_fixed_width {K C : ℕ} (m : HMM) (y : List (Fin C))
    (p : Params K C) (tol : ℚ) :
    (HMM.fit m y p tol).1.length = 250 ∧
    (HMM.fit m y p tol).1.take ((emRun (y.take m.n) tol fitMaxiter p).1.length)
      = (emRun (y.take m.n) tol fitMaxiter p).1 ∧
    (emRun (y.take m.n) tol fitMaxiter p).1.length ≤ 250 :=
  ⟨hmmFit_length m y p tol, hmmFit_take m y p tol,
    emRun_length_le (y.take m.n) tol fitMaxiter p⟩

/-- Claim C6: for nonnegative parameters and any nonempty sequence, the
Engine's returned total likelihood equals Σₖ α_T(k) of the plain forward
recursion with α₁(k) = π(k)·φ(k,y₁) and
αₜ(k) = φ(k,yₜ)·Σᵢ αₜ₋₁(i)·A(i,k); the Engine's normalized state times its
accumulated scale is the plain α, and the plain recursion satisfies the
claimed base case and step case. -/
theorem C6_forward_recursion {K C : ℕ} (p : Params K C) (hp : p.nonneg)
    (c : Fin C) (ys : List (Fin C)) :
    (forwardPass p (c :: ys)).1 = likelihood p (c :: ys) ∧
    (∀ k, (forwardPass p (c :: ys)).1 * (forwardPass p (c :: ys)).2 k
        = alphaLast p (c :: ys) k) ∧
    alphaLast p [c] = forwardInit p c ∧
    (∀ c', alphaLast p ((c :: ys) ++ [c'])
        = alphaStep p (alphaLast p (c :: ys)) c') := by
  have ha0 : ∀ k, 0 ≤ forwardInit p c k :=
    fun k => mul_nonneg (hp.2.2 k) (hp.2.1 k c)
  have hinv1 : ∀ k, (∑ j, forwardInit p c j)
      * (forwardInit p c k / ∑ j, forwardInit p c j) = forwardInit p c k := by
    intro k
    by_cases hs : (∑ j, forwardInit p c j) = 0
    · have hz : forwardInit p c k = 0 :=
        (Finset.sum_eq_zero_iff_of_nonneg (fun j _ => ha0 j)).mp hs k
          (Finset.mem_univ k)
      rw [hs, hz]
      ring
    · field_simp
    
  have key := fw_fold_inv p hp ys
    (∑ k, forwardInit p c k,
      fun k => forwardInit p c k / ∑ k, forwardInit p c k)
    (forwardInit p c) hinv1 rfl
    (fun k => div_nonneg (ha0 k) (Finset.sum_nonneg fun j _ => ha0 j))
  refine ⟨key.2.1, key.1, rfl, ?_⟩
  intro c'
  simp [alphaLast, List.foldl_append]

/-- Witness for C6 at uniform parameters and the sequence [0,1]. -/
theorem C6_forward_recursion_witness :
    (forwardPass pUnif [0, 1]).1 = likelihood pUnif [0, 1] ∧
    (∀ k, (forwardPass pUnif [0, 1]).1 * (forwardPass pUnif [0, 1]).2 k
        = alphaLast pUnif [0, 1] k) ∧
    alphaLast pUnif [0] = forwardInit pUnif 0 ∧
    (∀ c', alphaLast pUnif ([0, 1] ++ [c'])
        = alphaStep pUnif (alphaLast pUnif [0, 1]) c') :=
  C6_forward_recursion pUnif
    (by refine ⟨fun i j => ?_, fun k c => ?_, fun k => ?_⟩ <;> norm_num [pUnif])
    0 [1]

/-- Claim C7: the initial state distribution is never updated — both the
spec-level EM run and the notebook-facing `fit` return exactly the π they
started with (the notebook starts it uniform and never infers it). -/
theorem C7_pi0_frozen {K C : ℕ} (m : HMM) (y : List (Fin C))
    (p : Params K C) (tol : ℚ) (fuel : ℕ) :
    ((emRun y tol fuel p).2).pi0 = p.pi0 ∧
    ((HMM.fit m y p tol).2).pi0 = p.pi0 :=
  ⟨fitLoop_pi0 y tol fuel p [] none,
    fitLoop_pi0 (y.take m.n) tol fitMaxiter p [] none⟩

/-- Claim C8: the Baum-Welch re-estimation keeps (A, φ, π) valid: starting
from valid parameters, the parameters after any single M-step, after any
EM run, and after any notebook-facing `fit` are all row-stochastic with
nonnegative entries. -/
theorem C8_params_remain_valid {K C : ℕ} (y : List (Fin C)) (p : Params K C)
    (tol : ℚ) (h : p.valid) :
    (mStep y p).valid ∧
    (∀ fuel, ((emRun y tol fuel p).2).valid) ∧
    (∀ m : HMM, ((HMM.fit m y p tol).2).valid) :=
  ⟨mStep_valid y p h,
    fun fuel => fitLoop_valid y tol fuel p [] none h,
    fun m => fitLoop_valid (y.take m.n) tol fitMaxiter p [] none h⟩

/-- Witness for C8 at uniform parameters on the sequence [0,1]. -/
theorem C8_params_remain_valid_witness :
    (mStep [0, 1] pUnif).valid ∧
    (∀ fuel, ((emRun [0, 1] 1 fuel pUnif).2).valid) ∧
    (∀ m : HMM, ((HMM.fit m [0, 1] pUnif 1).2).valid) :=
  C8_params_remain_valid [0, 1] pUnif 1
    (by
      refine ⟨fun i => ⟨fun j => ?_, ?_⟩, fun k => ⟨fun c => ?_, ?_⟩,
        ⟨fun k => ?_, ?_⟩⟩ <;>
        simp [pUnif, Fin.sum_univ_two])

/-- Claim C10: with `0 < folds`, the notebook's fixed-width fold assembly
(every test row of length N/folds, every train row of length N - N/folds)
succeeds exactly when `folds` divides N. -/
theorem C10_fold_assembly_iff_divides (n k : ℕ) (hk : 0 < k) :
    (∀ i, i < k → (kfoldTestIdx n k i).length = n / k ∧
        (kfoldTrainIdx n k i).length = n - n / k) ↔ k ∣ n :=
  kfold_sizes_iff n k hk

/-- Witness for C10 at the notebook's N = 20000, folds = 5. -/
theorem C10_fold_assembly_iff_divides_witness :
    (∀ i, i < 5 → (kfoldTestIdx 20000 5 i).length = 20000 / 5 ∧
        (kfoldTrainIdx 20000 5 i).length = 20000 - 20000 / 5) ↔ 5 ∣ 20000 :=
  C10_fold_assembly_iff_divides 20000 5 (by norm_num)

/-- Claim C1, counterexample: a concrete cross-validation run in which the
notebook's reported score (which reuses the single `bestix` from the earlier
full-data fit for every fold) differs from the score prescribed by the
claim (per-fold winning initialization): 1/2 versus 1/4. -/
theorem C1_counterexample :
    notebookScore [0, 1] 1 [pUnif, pDiag] [cexFold, cexFold] = 1/2 ∧
    perFoldBestScore 1 [cexFold, cexFold] = 1/4 ∧
    notebookScore [0, 1] 1 [pUnif, pDiag] [cexFold, cexFold]
      ≠ perFoldBestScore 1 [cexFold, cexFold] := by
  refine ⟨cexNotebookScore, cexPerFoldScore, ?_⟩
  rw [cexNotebookScore, cexPerFoldScore]
  norm_num

/-- Claim C1, amended: the reported generalization score is the mean over
folds of the Engine's held-out log-likelihood evaluated, in EVERY fold, at
the parameters of the single initialization index `bestix` — the least
index maximizing the final log-likelihood of the earlier FULL-DATA fit
(cell 16); the per-fold training trajectories are discarded. -/
theorem C1_notebook_cv_score (y : List (Fin 2)) (tol : ℚ)
    (fullIp : List (Params 2 2)) (foldsData : List CVFold)
    (h : fullIp ≠ []) :
    notebookBestix y tol fullIp < fullIp.length ∧
    (∀ i, i < fullIp.length →
      finalLL (fullDataTrajs y tol fullIp) i
        ≤ finalLL (fullDataTrajs y tol fullIp) (notebookBestix y tol fullIp)) ∧
    (∀ i, i < notebookBestix y tol fullIp →
      finalLL (fullDataTrajs y tol fullIp) i
        < finalLL (fullDataTrajs y tol fullIp) (notebookBestix y tol fullIp)) ∧
    notebookScore y tol fullIp foldsData
      = listMean (foldsData.map (fun f =>
          (forwardPass (cvFitParams f tol (notebookBestix y tol fullIp))
            f.ytest).1)) := by
  have hne : fullDataTrajs y tol fullIp ≠ [] := by
    simpa [fullDataTrajs] using h
  have hlen : (fullDataTrajs y tol fullIp).length = fullIp.length := by
    simp [fullDataTrajs]
  have hb := find_best_fit_least_argmax _ hne
  rw [hlen] at hb
  exact ⟨hb.1, hb.2.1, hb.2.2, rfl⟩

/-- Witness for C1's amended theorem at the concrete two-fold instance. -/
theorem C1_notebook_cv_score_witness :
    notebookBestix [0, 1] 1 [pUnif, pDiag]
        < ([pUnif, pDiag] : List (Params 2 2)).length ∧
    (∀ i, i < ([pUnif, pDiag] : List (Params 2 2)).length →
      finalLL (fullDataTrajs [0, 1] 1 [pUnif, pDiag]) i
        ≤ finalLL (fullDataTrajs [0, 1] 1 [pUnif, pDiag])
            (notebookBestix [0, 1] 1 [pUnif, pDiag])) ∧
    (∀ i, i < notebookBestix [0, 1] 1 [pUnif, pDiag] →
      finalLL (fullDataTrajs [0, 1] 1 [pUnif, pDiag]) i
        < finalLL (fullDataTrajs [0, 1] 1 [pUnif, pDiag])
            (notebookBestix [0, 1] 1 [pUnif, pDiag])) ∧
    notebookScore [0, 1] 1 [pUnif, pDiag] [cexFold, cexFold]
      = listMean ([cexFold, cexFold].map (fun f =>
          (forwardPass
            (cvFitParams f 1 (notebookBestix [0, 1] 1 [pUnif, pDiag]))
            f.ytest).1)) :=
  C1_notebook_cv_score [0, 1] 1 [pUnif, pDiag] [cexFold, cexFold] (by simp)

/-- Claim C9: in every `fit`/`forwardPass` call the notebook makes, the
model object's mutable field `n` equals the length of the sequence argument
passed to that call — `n = N` for the full-data fits, `n = train_size` for
the per-fold fits, `n = test_size` for the held-out evaluations. -/
theorem C9_n_matches_call_lengths (y : List (Fin 2)) (hy : y.length = nbN) :
    ∀ c ∈ notebookCallSites y, c.1 = c.2 := by
  have hfl : ∀ i : ℕ, foldLen 20000 5 i = 4000 := by
    intro i
    unfold foldLen
    norm_num
  have htrain : ∀ i, i < 5 → (yTrainRow y 5 i).length = 16000 := by
    intro i hi
    simp only [yTrainRow, List.length_map]
    rw [hy]
    show (kfoldTrainIdx nbN 5 i).length = 16000
    rw [show nbN = 20000 from rfl, kfoldTrainIdx_length 20000 5 i hi, hfl i]
  have htest : ∀ i, i < 5 → (yTestRow y 5 i).length = 4000 := by
    intro i hi
    simp only [yTestRow, List.length_map]
    rw [hy]
    show (kfoldTestIdx nbN 5 i).length = 4000
    rw [show nbN = 20000 from rfl, kfoldTestIdx_length, hfl i]
  intro c hc
  simp only [notebookCallSites, List.mem_append, List.mem_map,
    List.mem_flatMap, List.mem_range, List.mem_cons, List.not_mem_nil,
    or_false] at hc
  rcases hc with (hc | hc) | hc
  · rcases hc with ⟨i, hi, rfl⟩
    exact hy.symm
  · rcases hc with ⟨i, hi, j, hj, rfl⟩
    show trainSize = (yTrainRow y nbFolds i).length
    rw [show yTrainRow y nbFolds i = yTrainRow y 5 i from rfl, htrain i hi]
    norm_num [trainSize, nbN, nbFolds]
  · rcases hc with ⟨i, hi, rfl | rfl⟩ <;>
      (show testSize = (yTestRow y nbFolds i).length
       rw [show yTestRow y nbFolds i = yTestRow y 5 i from rfl, htest i hi]
       norm_num [testSize, nbN, nbFolds])

/-- Witness for C9: the first call site of the trace on a concrete sequence
of length 20000 passes a sequence of length equal to the current `n`. -/
theorem C9_n_matches_call_lengths_witness :
    ((nbN, (List.replicate 20000 (0 : Fin 2)).length) : ℕ × ℕ).1
      = ((nbN, (List.replicate 20000 (0 : Fin 2)).length) : ℕ × ℕ).2 :=
  C9_n_matches_call_lengths (List.replicate 20000 (0 : Fin 2))
    (by rw [List.length_replicate]; rfl)
    (nbN, (List.replicate 20000 (0 : Fin 2)).length)
    (by
      apply List.mem_append_left
      apply List.mem_append_left
      exact List.mem_map.mpr ⟨0, by simp [nbInits], rfl⟩)

/-! ### Path-sum lemmas -/

theorem sum_vector_zero {α : Type} [Fintype α] [DecidableEq α]
    (f : Mathlib.Vector α 0 → ℚ) : ∑ z, f z = f Mathlib.Vector.nil := by
  rw [Fintype.sum_eq_single Mathlib.Vector.nil]
  intro x hx
  exact absurd x.eq_nil hx

theorem sum_vector_succ {α : Type} [Fintype α] [DecidableEq α] {n : ℕ}
    (f : Mathlib.Vector α (n + 1) → ℚ) :
    ∑ z, f z = ∑ j : α, ∑ z' : Mathlib.Vector α n, f (Mathlib.Vector.cons j z') := by
  rw [← Equiv.sum_comp (consEquiv (α := α) (n := n)) f, Fintype.sum_prod_type]
  rfl

theorem tailW_cons {K C : ℕ} (p : Params K C) (c : Fin C) (rest : List (Fin C))
    (k0 j : Fin K) (z' : Mathlib.Vector (Fin K) rest.length) :
    tailW p (c :: rest) k0 (Mathlib.Vector.cons j z')
      = p.A k0 j * p.phi j c * tailW p rest j z' := by
  simp [tailW]

theorem tailW_nonneg {K C : ℕ} (p : Params K C) (hp : p.nonneg) :
    ∀ (ys : List (Fin C)) (k0 : Fin K) (z : Mathlib.Vector (Fin K) ys.length),
      0 ≤ tailW p ys k0 z := by
  intro ys
  induction ys with
  | nil => intro k0 z; norm_num [tailW]
  | cons c rest ih =>
    intro k0 z
    exact mul_nonneg (mul_nonneg (hp.1 k0 z.head) (hp.2.1 z.head c))
      (ih z.head z.tail)

theorem fullW_nonneg {K C : ℕ} (p : Params K C) (hp : p.nonneg) (c0 : Fin C)
    (ys : List (Fin C)) (z : Mathlib.Vector (Fin K) (ys.length + 1)) :
    0 ≤ fullW p c0 ys z :=
  mul_nonneg (mul_nonneg (hp.2.2 z.head) (hp.2.1 z.head c0))
    (tailW_nonneg p hp ys z.head z.tail)

/-- The backward vector is the sum of suffix-path weights. -/
theorem betaHd_eq_sum_tailW {K C : ℕ} (p : Params K C) :
    ∀ (ys : List (Fin C)) (k : Fin K),
      betaHd p ys k = ∑ z, tailW p ys k z := by
  intro ys
  induction ys with
  | nil =>
    intro k
    show betaHd p [] k = ∑ z : Mathlib.Vector (Fin K) 0, tailW p [] k z
    rw [sum_vector_zero]
    rfl
  | cons c rest ih =>
    intro k
    show betaHd p (c :: rest) k
      = ∑ z : Mathlib.Vector (Fin K) (rest.length + 1), tailW p (c :: rest) k z
    rw [sum_vector_succ (fun z => tailW p (c :: rest) k z)]
    have h1 : ∀ j : Fin K, ∑ z' : Mathlib.Vector (Fin K) rest.length,
        tailW p (c :: rest) k (Mathlib.Vector.cons j z')
          = p.A k j * p.phi j c * betaHd p rest j := by
      intro j
      rw [ih j, Finset.mul_sum]
      exact Finset.sum_congr rfl fun z' _ => tailW_cons p c rest k j z'
    rw [Finset.sum_congr rfl fun j _ => h1 j]
    rfl

/-- The total mass of the forward recursion can be cut at the current
position: it is the pairing of the current forward vector with the
backward vector. -/
theorem sum_foldl_eq_pair_betaHd {K C : ℕ} (p : Params K C) :
    ∀ (ys : List (Fin C)) (a : Fin K → ℚ),
      ∑ k, List.foldl (alphaStep p) a ys k = ∑ k, a k * betaHd p ys k := by
  intro ys
  induction ys with
  | nil => intro a; simp [betaHd]
  | cons c rest ih =>
    intro a
    have h0 : ∑ k, List.foldl (alphaStep p) a (c :: rest) k
        = ∑ k, alphaStep p a c k * betaHd p rest k := by
      simp only [List.foldl_cons]
      exact ih (alphaStep p a c)
    rw [h0]
    have h1 : ∀ k, alphaStep p a c k * betaHd p rest k
        = ∑ i, a i * (p.A i k * p.phi k c * betaHd p rest k) := by
      intro k
      unfold alphaStep
      rw [Finset.mul_sum, Finset.sum_mul]
      exact Finset.sum_congr rfl fun i _ => by ring
    rw [Finset.sum_congr rfl fun k _ => h1 k, Finset.sum_comm]
    have h2 : ∀ i, ∑ k, a i * (p.A i k * p.phi k c * betaHd p rest k)
        = a i * betaHd p (c :: rest) i := by
      intro i
      rw [← Finset.mul_sum]
      rfl
    exact Finset.sum_congr rfl fun i _ => h2 i

/-- The likelihood is the sum of all full-path weights. -/
theorem likelihood_eq_sum_fullW {K C : ℕ} (p : Params K C) (c0 : Fin C)
    (ys : List (Fin C)) :
    likelihood p (c0 :: ys) = ∑ z, fullW p c0 ys z := by
  have h0 : likelihood p (c0 :: ys)
      = ∑ k, (forwardInit p c0) k * betaHd p ys k := by
    unfold likelihood alphaLast
    exact sum_foldl_eq_pair_betaHd p ys (forwardInit p c0)
  rw [h0, sum_vector_succ (fun z => fullW p c0 ys z)]
  refine Finset.sum_congr rfl fun k _ => ?_
  rw [betaHd_eq_sum_tailW p ys k, Finset.mul_sum]
  refine Finset.sum_congr rfl fun z' _ => ?_
  simp [fullW, forwardInit]
  try ring

theorem transCount_cons {K C : ℕ} (i j : Fin K) (c : Fin C)
    (rest : List (Fin C)) (k0 j0 : Fin K)
    (z' : Mathlib.Vector (Fin K) rest.length) :
    transCount i j (c :: rest) k0 (Mathlib.Vector.cons j0 z')
      = (if k0 = i ∧ j0 = j then 1 else 0) + transCount i j rest j0 z' := by
  simp [transCount]

theorem emitCount_cons {K C : ℕ} (k : Fin K) (cc : Fin C) (c : Fin C)
    (rest : List (Fin C)) (j0 : Fin K)
    (z' : Mathlib.Vector (Fin K) rest.length) :
    emitCount k cc (c :: rest) (Mathlib.Vector.cons j0 z')
      = (if j0 = k ∧ c = cc then 1 else 0) + emitCount k cc rest z' := by
  simp [emitCount]

theorem sA_nil {K C : ℕ} (p : Params K C) (i j k0 : Fin K) :
    sA p i j [] k0 = 0 := by
  show (∑ z : Mathlib.Vector (Fin K) (0 : ℕ),
    tailW p [] k0 z * (transCount i j [] k0 z : ℚ)) = 0
  rw [sum_vector_zero]
  simp [transCount]

theorem sE_nil {K C : ℕ} (p : Params K C) (k : Fin K) (cc : Fin C) (k0 : Fin K) :
    sE p k cc [] k0 = 0 := by
  show (∑ z : Mathlib.Vector (Fin K) (0 : ℕ),
    tailW p [] k0 z * (emitCount k cc [] z : ℚ)) = 0
  rw [sum_vector_zero]
  simp [emitCount]

theorem sA_cons {K C : ℕ} (p : Params K C) (i j : Fin K) (c : Fin C)
    (rest : List (Fin C)) (k0 : Fin K) :
    sA p i j (c :: rest) k0
      = (if k0 = i then p.A k0 j * p.phi j c * betaHd p rest j else 0)
        + ∑ j0, p.A k0 j0 * p.phi j0 c * sA p i j rest j0 := by
  show (∑ z : Mathlib.Vector (Fin K) (rest.length + 1),
      tailW p (c :: rest) k0 z * (transCount i j (c :: rest) k0 z : ℚ)) = _
  rw [sum_vector_succ]
  have h1 : ∀ j0 : Fin K, (∑ z' : Mathlib.Vector (Fin K) rest.length,
      tailW p (c :: rest) k0 (Mathlib.Vector.cons j0 z')
        * (transCount i j (c :: rest) k0 (Mathlib.Vector.cons j0 z') : ℚ))
      = (if k0 = i ∧ j0 = j then p.A k0 j0 * p.phi j0 c * betaHd p rest j0
          else 0)
        + p.A k0 j0 * p.phi j0 c * sA p i j rest j0 := by
    intro j0
    have h2 : ∀ z' : Mathlib.Vector (Fin K) rest.length,
        tailW p (c :: rest) k0 (Mathlib.Vector.cons j0 z')
          * (transCount i j (c :: rest) k0 (Mathlib.Vector.cons j0 z') : ℚ)
        = (if k0 = i ∧ j0 = j
            then p.A k0 j0 * p.phi j0 c * tailW p rest j0 z' else 0)
          + p.A k0 j0 * p.phi j0 c
            * (tailW p rest j0 z' * (transCount i j rest j0 z' : ℚ)) := by
      intro z'
      rw [tailW_cons, transCount_cons]
      by_cases h : k0 = i ∧ j0 = j
      · simp only [if_pos h]
        push_cast
        ring
      · simp only [if_neg h]
        push_cast
        ring
    rw [Finset.sum_congr rfl fun z' _ => h2 z', Finset.sum_add_distrib]
    congr 1
    · by_cases h : k0 = i ∧ j0 = j
      · simp only [if_pos h]
        rw [betaHd_eq_sum_tailW p rest j0, Finset.mul_sum]
      · simp [if_neg h]
    · rw [← Finset.mul_sum]
      rfl
  rw [Finset.sum_congr rfl fun j0 _ => h1 j0, Finset.sum_add_distrib]
  congr 1
  by_cases h : k0 = i
  · simp only [h, true_and]
    rw [Finset.sum_ite_eq' Finset.univ j
      (fun j0 => p.A i j0 * p.phi j0 c * betaHd p rest j0)]
    simp
  · simp [h]

theorem sE_cons {K C : ℕ} (p : Params K C) (k : Fin K) (cc : Fin C)
    (c : Fin C) (rest : List (Fin C)) (k0 : Fin K) :
    sE p k cc (c :: rest) k0
      = (if c = cc then p.A k0 k * p.phi k c * betaHd p rest k else 0)
        + ∑ j0, p.A k0 j0 * p.phi j0 c * sE p k cc rest j0 := by
  show (∑ z : Mathlib.Vector (Fin K) (rest.length + 1),
      tailW p (c :: rest) k0 z * (emitCount k cc (c :: rest) z : ℚ)) = _
  rw [sum_vector_succ]
  have h1 : ∀ j0 : Fin K, (∑ z' : Mathlib.Vector (Fin K) rest.length,
      tailW p (c :: rest) k0 (Mathlib.Vector.cons j0 z')
        * (emitCount k cc (c :: rest) (Mathlib.Vector.cons j0 z') : ℚ))
      = (if j0 = k ∧ c = cc then p.A k0 j0 * p.phi j0 c * betaHd p rest j0
          else 0)
        + p.A k0 j0 * p.phi j0 c * sE p k cc rest j0 := by
    intro j0
    have h2 : ∀ z' : Mathlib.Vector (Fin K) rest.length,
        tailW p (c :: rest) k0 (Mathlib.Vector.cons j0 z')
          * (emitCount k cc (c :: rest) (Mathlib.Vector.cons j0 z') : ℚ)
        = (if j0 = k ∧ c = cc
            then p.A k0 j0 * p.phi j0 c * tailW p rest j0 z' else 0)
          + p.A k0 j0 * p.phi j0 c
            * (tailW p rest j0 z' * (emitCount k cc rest z' : ℚ)) := by
      intro z'
      rw [tailW_cons, emitCount_cons]
      by_cases h : j0 = k ∧ c = cc
      · simp only [if_pos h]
        push_cast
        ring
      · simp only [if_neg h]
        push_cast
        ring
    rw [Finset.sum_congr rfl fun z' _ => h2 z', Finset.sum_add_distrib]
    congr 1
    · by_cases h : j0 = k ∧ c = cc
      · simp only [if_pos h]
        rw [betaHd_eq_sum_tailW p rest j0, Finset.mul_sum]
      · simp [if_neg h]
    · rw [← Finset.mul_sum]
      rfl
  rw [Finset.sum_congr rfl fun j0 _ => h1 j0, Finset.sum_add_distrib]
  congr 1
  by_cases h : c = cc
  · subst h
    have hs : ∀ j0 : Fin K,
        (if j0 = k ∧ c = c then p.A k0 j0 * p.phi j0 c * betaHd p rest j0
          else 0)
        = (if j0 = k then p.A k0 j0 * p.phi j0 c * betaHd p rest j0 else 0) := by
      intro j0
      simp
    rw [Finset.sum_congr rfl fun j0 _ => hs j0, Finset.sum_ite_eq' Finset.univ k
      (fun j0 => p.A k0 j0 * p.phi j0 c * betaHd p rest j0)]
    simp
  · simp [h]

theorem pair_alphaStep_sum {K C : ℕ} (p : Params K C) (a : Fin K → ℚ)
    (c : Fin C) (F : Fin K → ℚ) :
    ∑ k0, a k0 * ∑ j0, p.A k0 j0 * p.phi j0 c * F j0
      = ∑ j0, alphaStep p a c j0 * F j0 := by
  have h1 : ∀ k0, a k0 * ∑ j0, p.A k0 j0 * p.phi j0 c * F j0
      = ∑ j0, a k0 * p.A k0 j0 * (p.phi j0 c * F j0) := by
    intro k0
    rw [Finset.mul_sum]
    exact Finset.sum_congr rfl fun j0 _ => by ring
  rw [Finset.sum_congr rfl fun k0 _ => h1 k0, Finset.sum_comm]
  refine Finset.sum_congr rfl fun j0 _ => ?_
  unfold alphaStep
  rw [← Finset.sum_mul]
  ring

/-- Pairing the forward mass with the suffix expected transition counts
yields the Baum-Welch A-numerator. -/
theorem aNum_eq_pair_sA {K C : ℕ} (p : Params K C) (i j : Fin K) :
    ∀ (ys : List (Fin C)) (a : Fin K → ℚ),
      ∑ k0, a k0 * sA p i j ys k0 = aNum p i j a ys := by
  intro ys
  induction ys with
  | nil =>
    intro a
    simp [sA_nil, aNum]
  | cons c rest ih =>
    intro a
    have h1 : ∀ k0, a k0 * sA p i j (c :: rest) k0
        = (if k0 = i then a k0 * (p.A k0 j * p.phi j c * betaHd p rest j)
            else 0)
          + a k0 * ∑ j0, p.A k0 j0 * p.phi j0 c * sA p i j rest j0 := by
      intro k0
      rw [sA_cons, mul_add, mul_ite, mul_zero]
    rw [Finset.sum_congr rfl fun k0 _ => h1 k0, Finset.sum_add_distrib]
    have h2 : (∑ k0, if k0 = i
        then a k0 * (p.A k0 j * p.phi j c * betaHd p rest j) else 0)
        = a i * p.A i j * p.phi j c * betaHd p rest j := by
      rw [Finset.sum_ite_eq' Finset.univ i
        (fun k0 => a k0 * (p.A k0 j * p.phi j c * betaHd p rest j))]
      simp
      ring
    have h3 : (∑ k0, a k0 * ∑ j0, p.A k0 j0 * p.phi j0 c * sA p i j rest j0)
        = aNum p i j (alphaStep p a c) rest := by
      rw [pair_alphaStep_sum p a c (fun j0 => sA p i j rest j0)]
      exact ih (alphaStep p a c)
    rw [h2, h3]
    rfl

/-- Pairing the forward mass with the suffix expected emission counts
(plus the current position's emission) yields the φ-numerator. -/
theorem phiNum_eq_pair_sE {K C : ℕ} (p : Params K C) (k : Fin K) (cc : Fin C) :
    ∀ (ys : List (Fin C)) (a : Fin K → ℚ) (ccur : Fin C),
      (if ccur = cc then a k * betaHd p ys k else 0)
          + ∑ k0, a k0 * sE p k cc ys k0
        = phiNum p k cc a ccur ys := by
  intro ys
  induction ys with
  | nil =>
    intro a ccur
    simp [sE_nil, phiNum, betaHd]
  | cons c rest ih =>
    intro a ccur
    have h1 : ∀ k0, a k0 * sE p k cc (c :: rest) k0
        = (if c = cc then a k0 * (p.A k0 k * p.phi k c * betaHd p rest k)
            else 0)
          + a k0 * ∑ j0, p.A k0 j0 * p.phi j0 c * sE p k cc rest j0 := by
      intro k0
      rw [sE_cons, mul_add, mul_ite, mul_zero]
    rw [Finset.sum_congr rfl fun k0 _ => h1 k0, Finset.sum_add_distrib]
    have h2 : (∑ k0, if c = cc
        then a k0 * (p.A k0 k * p.phi k c * betaHd p rest k) else 0)
        = (if c = cc then alphaStep p a c k * betaHd p rest k else 0) := by
      by_cases h : c = cc
      · simp only [if_pos h]
        have h4 : ∀ k0, a k0 * (p.A k0 k * p.phi k c * betaHd p rest k)
            = a k0 * p.A k0 k * (p.phi k c * betaHd p rest k) :=
          fun k0 => by ring
        rw [Finset.sum_congr rfl fun k0 _ => h4 k0, ← Finset.sum_mul]
        unfold alphaStep
        ring
      · simp [h]
    have h3 : (∑ k0, a k0 * ∑ j0, p.A k0 j0 * p.phi j0 c * sE p k cc rest j0)
        = ∑ j0, alphaStep p a c j0 * sE p k cc rest j0 :=
      pair_alphaStep_sum p a c (fun j0 => sE p k cc rest j0)
    rw [h2, h3]
    have h5 := ih (alphaStep p a c) c
    show (if ccur = cc then a k * betaHd p (c :: rest) k else 0)
        + ((if c = cc then alphaStep p a c k * betaHd p rest k else 0)
          + ∑ j0, alphaStep p a c j0 * sE p k cc rest j0)
      = phiNum p k cc a ccur (c :: rest)
    rw [h5]
    rfl

/-- The expected i→j transition count over full paths is the
A-numerator. -/
theorem sum_fullW_transCount {K C : ℕ} (p : Params K C) (c0 : Fin C)
    (ys : List (Fin C)) (i j : Fin K) :
    ∑ z, fullW p c0 ys z * (fullTransCount i j ys z : ℚ)
      = aNum p i j (forwardInit p c0) ys := by
  rw [sum_vector_succ (fun z => fullW p c0 ys z * (fullTransCount i j ys z : ℚ))]
  have h1 : ∀ k0 : Fin K, (∑ z' : Mathlib.Vector (Fin K) ys.length,
      fullW p c0 ys (Mathlib.Vector.cons k0 z')
        * (fullTransCount i j ys (Mathlib.Vector.cons k0 z') : ℚ))
      = forwardInit p c0 k0 * sA p i j ys k0 := by
    intro k0
    have h2 : ∀ z' : Mathlib.Vector (Fin K) ys.length,
        fullW p c0 ys (Mathlib.Vector.cons k0 z')
          * (fullTransCount i j ys (Mathlib.Vector.cons k0 z') : ℚ)
        = forwardInit p c0 k0
          * (tailW p ys k0 z' * (transCount i j ys k0 z' : ℚ)) := by
      intro z'
      unfold fullW fullTransCount forwardInit
      simp
      ring
    rw [Finset.sum_congr rfl fun z' _ => h2 z', ← Finset.mul_sum]
    rfl
  rw [Finset.sum_congr rfl fun k0 _ => h1 k0]
  exact aNum_eq_pair_sA p i j ys (forwardInit p c0)

/-- The expected (k, cc) emission count over full paths is the
φ-numerator. -/
theorem sum_fullW_emitCount {K C : ℕ} (p : Params K C) (c0 : Fin C)
    (ys : List (Fin C)) (k : Fin K) (cc : Fin C) :
    ∑ z, fullW p c0 ys z * (fullEmitCount k cc c0 ys z : ℚ)
      = phiNum p k cc (forwardInit p c0) c0 ys := by
  rw [sum_vector_succ
    (fun z => fullW p c0 ys z * (fullEmitCount k cc c0 ys z : ℚ))]
  have h1 : ∀ k0 : Fin K, (∑ z' : Mathlib.Vector (Fin K) ys.length,
      fullW p c0 ys (Mathlib.Vector.cons k0 z')
        * (fullEmitCount k cc c0 ys (Mathlib.Vector.cons k0 z') : ℚ))
      = (if k0 = k ∧ c0 = cc
          then forwardInit p c0 k0 * betaHd p ys k0 else 0)
        + forwardInit p c0 k0 * sE p k cc ys k0 := by
    intro k0
    have h2 : ∀ z' : Mathlib.Vector (Fin K) ys.length,
        fullW p c0 ys (Mathlib.Vector.cons k0 z')
          * (fullEmitCount k cc c0 ys (Mathlib.Vector.cons k0 z') : ℚ)
        = (if k0 = k ∧ c0 = cc
            then forwardInit p c0 k0 * tailW p ys k0 z' else 0)
          + forwardInit p c0 k0
            * (tailW p ys k0 z' * (emitCount k cc ys z' : ℚ)) := by
      intro z'
      unfold fullW fullEmitCount forwardInit
      simp only [Mathlib.Vector.head_cons, Mathlib.Vector.tail_cons]
      by_cases h : k0 = k ∧ c0 = cc
      · simp only [if_pos h]
        push_cast
        ring
      · simp only [if_neg h]
        push_cast
        ring
    rw [Finset.sum_congr rfl fun z' _ => h2 z', Finset.sum_add_distrib]
    congr 1
    · by_cases h : k0 = k ∧ c0 = cc
      · simp only [if_pos h]
        rw [betaHd_eq_sum_tailW p ys k0, Finset.mul_sum]
      · simp [if_neg h]
    · rw [← Finset.mul_sum]
      rfl
  rw [Finset.sum_congr rfl fun k0 _ => h1 k0, Finset.sum_add_distrib]
  have h3 : (∑ k0, if k0 = k ∧ c0 = cc
      then forwardInit p c0 k0 * betaHd p ys k0 else 0)
      = (if c0 = cc then forwardInit p c0 k * betaHd p ys k else 0) := by
    by_cases h : c0 = cc
    · subst h
      have hs : ∀ k0 : Fin K,
          (if k0 = k ∧ c0 = c0
            then forwardInit p c0 k0 * betaHd p ys k0 else 0)
          = (if k0 = k then forwardInit p c0 k0 * betaHd p ys k0 else 0) := by
        intro k0
        simp
      rw [Finset.sum_congr rfl fun k0 _ => hs k0, Finset.sum_ite_eq'
        Finset.univ k (fun k0 => forwardInit p c0 k0 * betaHd p ys k0)]
      simp
    · simp [h]
  rw [h3]
  exact phiNum_eq_pair_sE p k cc ys (forwardInit p c0) c0

/-- Row sums of the A-numerators give the A-denominator. -/
theorem sum_aNum_eq_aDen {K C : ℕ} (p : Params K C) (i : Fin K) :
    ∀ (ys : List (Fin C)) (a : Fin K → ℚ),
      ∑ j, aNum p i j a ys = aDen p i a ys := by
  intro ys
  induction ys with
  | nil => intro a; simp [aNum, aDen]
  | cons c rest ih =>
    intro a
    have h1 : ∀ j, aNum p i j a (c :: rest)
        = a i * (p.A i j * p.phi j c * betaHd p rest j)
          + aNum p i j (alphaStep p a c) rest := by
      intro j
      have h2 : aNum p i j a (c :: rest)
          = a i * p.A i j * p.phi j c * betaHd p rest j
            + aNum p i j (alphaStep p a c) rest := rfl
      rw [h2]
      ring
    rw [Finset.sum_congr rfl fun j _ => h1 j, Finset.sum_add_distrib,
      ← Finset.mul_sum, ih (alphaStep p a c)]
    show a i * betaHd p (c :: rest) i + aDen p i (alphaStep p a c) rest
      = aDen p i a (c :: rest)
    rfl

/-- Summing the φ-numerators over all symbols gives the φ-denominator. -/
theorem sum_phiNum_eq_phiDen {K C : ℕ} (p : Params K C) (k : Fin K) :
    ∀ (ys : List (Fin C)) (a : Fin K → ℚ) (ccur : Fin C),
      ∑ cc, phiNum p k cc a ccur ys = phiDen p k a ys := by
  intro ys
  induction ys with
  | nil =>
    intro a ccur
    show (∑ cc, if ccur = cc then a k else 0) = a k
    rw [Finset.sum_ite_eq Finset.univ ccur (fun _ => a k)]
    simp
  | cons c rest ih =>
    intro a ccur
    have h1 : ∀ cc, phiNum p k cc a ccur (c :: rest)
        = (if ccur = cc then a k * betaHd p (c :: rest) k else 0)
          + phiNum p k cc (alphaStep p a c) c rest := fun cc => rfl
    rw [Finset.sum_congr rfl fun cc _ => h1 cc, Finset.sum_add_distrib,
      Finset.sum_ite_eq Finset.univ ccur
        (fun _ => a k * betaHd p (c :: rest) k), ih (alphaStep p a c)]
    simp
    rfl

theorem xisA_map_sum {K C : ℕ} (p : Params K C) (L : ℚ) (i j : Fin K) :
    ∀ (ys : List (Fin C)) (a : Fin K → ℚ),
      ((xisA p L a ys).map (fun x => x i j)).sum = aNum p i j a ys / L := by
  intro ys
  induction ys with
  | nil => intro a; simp [xisA, aNum]
  | cons c rest ih =>
    intro a
    show a i * p.A i j * p.phi j c * betaHd p rest j / L
        + ((xisA p L (alphaStep p a c) rest).map (fun x => x i j)).sum
      = aNum p i j a (c :: rest) / L
    rw [ih (alphaStep p a c)]
    show _ = (a i * p.A i j * p.phi j c * betaHd p rest j
        + aNum p i j (alphaStep p a c) rest) / L
    rw [add_div]

theorem gammasA_dropLast_map_sum {K C : ℕ} (p : Params K C) (L : ℚ) (i : Fin K) :
    ∀ (ys : List (Fin C)) (a : Fin K → ℚ),
      ((gammasA p L a ys).dropLast.map (fun g => g i)).sum
        = aDen p i a ys / L := by
  intro ys
  induction ys with
  | nil => intro a; simp [gammasA, aDen]
  | cons c rest ih =>
    intro a
    have hg : gammasA p L a (c :: rest)
        = (fun k => a k * betaHd p (c :: rest) k / L) ::
            gammasA p L (alphaStep p a c) rest := rfl
    rw [hg]
    rcases hgl : gammasA p L (alphaStep p a c) rest with _ | ⟨g1, gs⟩
    · exact absurd hgl (gammasA_ne_nil p L (alphaStep p a c) rest)
    · rw [List.dropLast_cons₂]
      simp only [List.map_cons, List.sum_cons, ← hgl]
      rw [ih (alphaStep p a c)]
      show a i * betaHd p (c :: rest) i / L + aDen p i (alphaStep p a c) rest / L
        = (a i * betaHd p (c :: rest) i + aDen p i (alphaStep p a c) rest) / L
      rw [add_div]

theorem gammasA_map_sum {K C : ℕ} (p : Params K C) (L : ℚ) (k : Fin K) :
    ∀ (ys : List (Fin C)) (a : Fin K → ℚ),
      ((gammasA p L a ys).map (fun g => g k)).sum = phiDen p k a ys / L := by
  intro ys
  induction ys with
  | nil =>
    intro a
    show a k * betaHd p [] k / L + 0 = phiDen p k a [] / L
    show a k * 1 / L + 0 = a k / L
    rw [mul_one, add_zero]
  | cons c rest ih =>
    intro a
    show a k * betaHd p (c :: rest) k / L
        + ((gammasA p L (alphaStep p a c) rest).map (fun g => g k)).sum
      = phiDen p k a (c :: rest) / L
    rw [ih (alphaStep p a c)]
    show _ = (a k * betaHd p (c :: rest) k
        + phiDen p k (alphaStep p a c) rest) / L
    rw [add_div]

theorem zip_filter_sum {K C : ℕ} (p : Params K C) (L : ℚ) (k : Fin K)
    (cc : Fin C) :
    ∀ (ys : List (Fin C)) (a : Fin K → ℚ) (ccur : Fin C),
      ((((ccur :: ys).zip (gammasA p L a ys)).filter
          (fun t => decide (t.1 = cc))).map (fun t => t.2 k)).sum
        = phiNum p k cc a ccur ys / L := by
  intro ys
  induction ys with
  | nil =>
    intro a ccur
    by_cases h : ccur = cc
    · simp [gammasA, List.filter_cons, h, phiNum, betaHd]
    · simp [gammasA, List.filter_cons, h, phiNum]
  | cons c rest ih =>
    intro a ccur
    have hg : gammasA p L a (c :: rest)
        = (fun j => a j * betaHd p (c :: rest) j / L) ::
            gammasA p L (alphaStep p a c) rest := rfl
    have hz : (ccur :: c :: rest).zip (gammasA p L a (c :: rest))
        = (ccur, fun j => a j * betaHd p (c :: rest) j / L) ::
            (c :: rest).zip (gammasA p L (alphaStep p a c) rest) := by
      rw [hg]
      rfl
    rw [hz]
    simp only [List.filter_cons, decide_eq_true_eq]
    by_cases h : ccur = cc
    · rw [if_pos h]
      simp only [List.map_cons, List.sum_cons]
      rw [ih (alphaStep p a c) c]
      show a k * betaHd p (c :: rest) k / L
          + phiNum p k cc (alphaStep p a c) c rest / L
        = phiNum p k cc a ccur (c :: rest) / L
      have hr : phiNum p k cc a ccur (c :: rest)
          = a k * betaHd p (c :: rest) k
            + phiNum p k cc (alphaStep p a c) c rest := by
        show (if ccur = cc then a k * betaHd p (c :: rest) k else 0) + _ = _
        rw [if_pos h]
      rw [hr, add_div]
    · rw [if_neg h]
      rw [ih (alphaStep p a c) c]
      have hr : phiNum p k cc a ccur (c :: rest)
          = phiNum p k cc (alphaStep p a c) c rest := by
        show (if ccur = cc then a k * betaHd p (c :: rest) k else 0) + _ = _
        rw [if_neg h, zero_add]
      rw [hr]

theorem prod_pow_ite {α : Type} [Fintype α] [DecidableEq α] (f : α → ℚ) (a : α) :
    ∏ u, f u ^ (if a = u then 1 else 0) = f a := by
  have h : ∀ u, f u ^ (if a = u then 1 else 0) = (if a = u then f u else 1) := by
    intro u
    split <;> simp
  rw [Finset.prod_congr rfl fun u _ => h u, Finset.prod_ite_eq]
  simp

/-- Every suffix-path weight factorizes as a product of parameter entries
raised to their path counts. -/
theorem tailW_factor {K C : ℕ} (p : Params K C) :
    ∀ (ys : List (Fin C)) (k0 : Fin K) (z : Mathlib.Vector (Fin K) ys.length),
      tailW p ys k0 z
        = (∏ u : Fin K × Fin K, p.A u.1 u.2 ^ transCount u.1 u.2 ys k0 z)
          * ∏ v : Fin K × Fin C, p.phi v.1 v.2 ^ emitCount v.1 v.2 ys z := by
  intro ys
  induction ys with
  | nil =>
    intro k0 z
    simp [tailW, transCount, emitCount]
  | cons c rest ih =>
    intro k0 z
    rw [← z.cons_head_tail, tailW_cons]
    have hA : ∀ u : Fin K × Fin K,
        p.A u.1 u.2 ^ transCount u.1 u.2 (c :: rest) k0
            (Mathlib.Vector.cons z.head z.tail)
        = p.A u.1 u.2 ^ (if (k0, z.head) = u then 1 else 0)
          * p.A u.1 u.2 ^ transCount u.1 u.2 rest z.head z.tail := by
      intro u
      rw [transCount_cons, pow_add]
      congr 2
      simp [Prod.ext_iff]
    have hphi : ∀ v : Fin K × Fin C,
        p.phi v.1 v.2 ^ emitCount v.1 v.2 (c :: rest)
            (Mathlib.Vector.cons z.head z.tail)
        = p.phi v.1 v.2 ^ (if (z.head, c) = v then 1 else 0)
          * p.phi v.1 v.2 ^ emitCount v.1 v.2 rest z.tail := by
      intro v
      rw [emitCount_cons, pow_add]
      congr 2
      simp [Prod.ext_iff]
    rw [Finset.prod_congr rfl fun u _ => hA u,
      Finset.prod_congr rfl fun v _ => hphi v,
      Finset.prod_mul_distrib, Finset.prod_mul_distrib,
      prod_pow_ite (fun u : Fin K × Fin K => p.A u.1 u.2) (k0, z.head),
      prod_pow_ite (fun v : Fin K × Fin C => p.phi v.1 v.2) (z.head, c),
      ih z.head z.tail]
    ring

/-- Every full-path weight factorizes as π(z₁) times products of parameter
entries raised to their full-path counts. -/
theorem fullW_factor {K C : ℕ} (p : Params K C) (c0 : Fin C)
    (ys : List (Fin C)) (z : Mathlib.Vector (Fin K) (ys.length + 1)) :
    fullW p c0 ys z
      = p.pi0 z.head
        * (∏ u : Fin K × Fin K, p.A u.1 u.2 ^ fullTransCount u.1 u.2 ys z)
        * ∏ v : Fin K × Fin C, p.phi v.1 v.2 ^ fullEmitCount v.1 v.2 c0 ys z := by
  unfold fullW fullTransCount fullEmitCount
  rw [tailW_factor p ys z.head z.tail]
  have hphi : ∀ v : Fin K × Fin C,
      p.phi v.1 v.2 ^ ((if z.head = v.1 ∧ c0 = v.2 then 1 else 0)
          + emitCount v.1 v.2 ys z.tail)
      = p.phi v.1 v.2 ^ (if (z.head, c0) = v then 1 else 0)
        * p.phi v.1 v.2 ^ emitCount v.1 v.2 ys z.tail := by
    intro v
    rw [pow_add]
    congr 2
    simp [Prod.ext_iff]
  rw [Finset.prod_congr rfl fun v _ => hphi v, Finset.prod_mul_distrib,
    prod_pow_ite (fun v : Fin K × Fin C => p.phi v.1 v.2) (z.head, c0)]
  ring

/-- On the support of the weight, every counted parameter entry is
positive. -/
theorem fullW_factors_pos {K C : ℕ} (p : Params K C) (hp : p.nonneg)
    (c0 : Fin C) (ys : List (Fin C))
    (z : Mathlib.Vector (Fin K) (ys.length + 1)) (hw : fullW p c0 ys z ≠ 0) :
    0 < p.pi0 z.head ∧
    (∀ u : Fin K × Fin K, 0 < fullTransCount u.1 u.2 ys z → 0 < p.A u.1 u.2) ∧
    (∀ v : Fin K × Fin C, 0 < fullEmitCount v.1 v.2 c0 ys z
      → 0 < p.phi v.1 v.2) := by
  rw [fullW_factor] at hw
  refine ⟨?_, ?_, ?_⟩
  · rcases lt_or_eq_of_le (hp.2.2 z.head) with h | h
    · exact h
    · exact absurd (by rw [← h]; ring) hw
  · intro u hu
    rcases lt_or_eq_of_le (hp.1 u.1 u.2) with h | h
    · exact h
    · exfalso
      apply hw
      have hz : p.A u.1 u.2 ^ fullTransCount u.1 u.2 ys z = 0 := by
        rw [← h]
        exact zero_pow (Nat.pos_iff_ne_zero.mp hu)
      rw [Finset.prod_eq_zero (Finset.mem_univ u) hz]
      ring
  · intro v hv
    rcases lt_or_eq_of_le (hp.2.1 v.1 v.2) with h | h
    · exact h
    · exfalso
      apply hw
      have hz : p.phi v.1 v.2 ^ fullEmitCount v.1 v.2 c0 ys z = 0 := by
        rw [← h]
        exact zero_pow (Nat.pos_iff_ne_zero.mp hv)
      rw [Finset.prod_eq_zero (Finset.mem_univ v) hz]
      ring

theorem aNum_nonneg {K C : ℕ} (p : Params K C) (hp : p.nonneg) (i j : Fin K) :
    ∀ (ys : List (Fin C)) (a : Fin K → ℚ), (∀ k, 0 ≤ a k) →
      0 ≤ aNum p i j a ys := by
  intro ys
  induction ys with
  | nil => intro a _; exact le_refl 0
  | cons c rest ih =>
    intro a ha
    refine add_nonneg ?_ (ih (alphaStep p a c) fun k => alphaStep_nonneg p hp a ha c k)
    exact mul_nonneg (mul_nonneg (mul_nonneg (ha i) (hp.1 i j)) (hp.2.1 j c))
      (betaHd_nonneg p hp rest j)

theorem aDen_nonneg {K C : ℕ} (p : Params K C) (hp : p.nonneg) (i : Fin K) :
    ∀ (ys : List (Fin C)) (a : Fin K → ℚ), (∀ k, 0 ≤ a k) →
      0 ≤ aDen p i a ys := by
  intro ys
  induction ys with
  | nil => intro a _; exact le_refl 0
  | cons c rest ih =>
    intro a ha
    refine add_nonneg ?_ (ih (alphaStep p a c) fun k => alphaStep_nonneg p hp a ha c k)
    exact mul_nonneg (ha i) (betaHd_nonneg p hp (c :: rest) i)

theorem phiNum_nonneg {K C : ℕ} (p : Params K C) (hp : p.nonneg) (k : Fin K)
    (cc : Fin C) :
    ∀ (ys : List (Fin C)) (a : Fin K → ℚ) (ccur : Fin C), (∀ k', 0 ≤ a k') →
      0 ≤ phiNum p k cc a ccur ys := by
  intro ys
  induction ys with
  | nil =>
    intro a ccur ha
    show 0 ≤ if ccur = cc then a k else 0
    split
    · exact ha k
    · exact le_refl 0
  | cons c rest ih =>
    intro a ccur ha
    refine add_nonneg ?_
      (ih (alphaStep p a c) c fun k' => alphaStep_nonneg p hp a ha c k')
    split
    · exact mul_nonneg (ha k) (betaHd_nonneg p hp (c :: rest) k)
    · exact le_refl 0

theorem phiDen_nonneg {K C : ℕ} (p : Params K C) (hp : p.nonneg) (k : Fin K) :
    ∀ (ys : List (Fin C)) (a : Fin K → ℚ), (∀ k', 0 ≤ a k') →
      0 ≤ phiDen p k a ys := by
  intro ys
  induction ys with
  | nil => intro a ha; exact ha k
  | cons c rest ih =>
    intro a ha
    refine add_nonneg ?_ (ih (alphaStep p a c) fun k' => alphaStep_nonneg p hp a ha c k')
    exact mul_nonneg (ha k) (betaHd_nonneg p hp (c :: rest) k)

theorem mStep_A_eq {K C : ℕ} (p : Params K C) (c0 : Fin C) (ys : List (Fin C))
    (hL : likelihood p (c0 :: ys) ≠ 0) (i j : Fin K) :
    (mStep (c0 :: ys) p).A i j
      = if aDen p i (forwardInit p c0) ys = 0 then p.A i j
        else aNum p i j (forwardInit p c0) ys
          / aDen p i (forwardInit p c0) ys := by
  rw [mStep_cons_A,
    gammasA_dropLast_map_sum p (likelihood p (c0 :: ys)) i ys (forwardInit p c0),
    xisA_map_sum p (likelihood p (c0 :: ys)) i j ys (forwardInit p c0)]
  by_cases hd : aDen p i (forwardInit p c0) ys = 0
  · rw [if_pos (by rw [hd, zero_div]), if_pos hd]
  · rw [if_neg (by
      intro hcontra
      rcases div_eq_zero_iff.mp hcontra with h | h
      · exact hd h
      · exact hL h), if_neg hd]
    field_simp

theorem mStep_phi_eq {K C : ℕ} (p : Params K C) (c0 : Fin C) (ys : List (Fin C))
    (hL : likelihood p (c0 :: ys) ≠ 0) (k : Fin K) (cc : Fin C) :
    (mStep (c0 :: ys) p).phi k cc
      = if phiDen p k (forwardInit p c0) ys = 0 then p.phi k cc
        else phiNum p k cc (forwardInit p c0) c0 ys
          / phiDen p k (forwardInit p c0) ys := by
  rw [mStep_cons_phi,
    gammasA_map_sum p (likelihood p (c0 :: ys)) k ys (forwardInit p c0),
    zip_filter_sum p (likelihood p (c0 :: ys)) k cc ys (forwardInit p c0) c0]
  by_cases hd : phiDen p k (forwardInit p c0) ys = 0
  · rw [if_pos (by rw [hd, zero_div]), if_pos hd]
  · rw [if_neg (by
      intro hcontra
      rcases div_eq_zero_iff.mp hcontra with h | h
      · exact hd h
      · exact hL h), if_neg hd]
    field_simp

theorem sum_term_le {ι : Type} [Fintype ι] (f : ι → ℚ) (hf : ∀ i, 0 ≤ f i)
    (a : ι) : f a ≤ ∑ i, f i :=
  Finset.single_le_sum (fun i _ => hf i) (Finset.mem_univ a)

theorem aNum_pos_of_support {K C : ℕ} (p : Params K C) (hp : p.nonneg)
    (c0 : Fin C) (ys : List (Fin C))
    (z : Mathlib.Vector (Fin K) (ys.length + 1)) (hw : fullW p c0 ys z ≠ 0)
    (i j : Fin K) (hn : 0 < fullTransCount i j ys z) :
    0 < aNum p i j (forwardInit p c0) ys := by
  rw [← sum_fullW_transCount]
  have hterm : 0 < fullW p c0 ys z * (fullTransCount i j ys z : ℚ) :=
    mul_pos (lt_of_le_of_ne (fullW_nonneg p hp c0 ys z) (Ne.symm hw))
      (by exact_mod_cast hn)
  exact lt_of_lt_of_le hterm
    (sum_term_le (fun z' => fullW p c0 ys z' * (fullTransCount i j ys z' : ℚ))
      (fun z' => mul_nonneg (fullW_nonneg p hp c0 ys z') (Nat.cast_nonneg _)) z)

theorem phiNum_pos_of_support {K C : ℕ} (p : Params K C) (hp : p.nonneg)
    (c0 : Fin C) (ys : List (Fin C))
    (z : Mathlib.Vector (Fin K) (ys.length + 1)) (hw : fullW p c0 ys z ≠ 0)
    (k : Fin K) (cc : Fin C) (hn : 0 < fullEmitCount k cc c0 ys z) :
    0 < phiNum p k cc (forwardInit p c0) c0 ys := by
  rw [← sum_fullW_emitCount]
  have hterm : 0 < fullW p c0 ys z * (fullEmitCount k cc c0 ys z : ℚ) :=
    mul_pos (lt_of_le_of_ne (fullW_nonneg p hp c0 ys z) (Ne.symm hw))
      (by exact_mod_cast hn)
  exact lt_of_lt_of_le hterm
    (sum_term_le (fun z' => fullW p c0 ys z' * (fullEmitCount k cc c0 ys z' : ℚ))
      (fun z' => mul_nonneg (fullW_nonneg p hp c0 ys z') (Nat.cast_nonneg _)) z)

theorem A_pos_of_aNum_pos {K C : ℕ} (p : Params K C) (hp : p.nonneg)
    (c0 : Fin C) (ys : List (Fin C)) (i j : Fin K)
    (h : 0 < aNum p i j (forwardInit p c0) ys) : 0 < p.A i j := by
  rw [← sum_fullW_transCount] at h
  have hex : ∃ z, fullW p c0 ys z * (fullTransCount i j ys z : ℚ) ≠ 0 := by
    by_contra hq
    push_neg at hq
    rw [Finset.sum_eq_zero fun z _ => hq z] at h
    exact lt_irrefl 0 h
  obtain ⟨z, hz⟩ := hex
  have hW : fullW p c0 ys z ≠ 0 := fun h0 => hz (by rw [h0]; ring)
  have hn : 0 < fullTransCount i j ys z := by
    rcases Nat.eq_zero_or_pos (fullTransCount i j ys z) with h0 | h0
    · exact absurd (by rw [h0]; push_cast; ring) hz
    · exact h0
  exact (fullW_factors_pos p hp c0 ys z hW).2.1 (i, j) hn

theorem phi_pos_of_phiNum_pos {K C : ℕ} (p : Params K C) (hp : p.nonneg)
    (c0 : Fin C) (ys : List (Fin C)) (k : Fin K) (cc : Fin C)
    (h : 0 < phiNum p k cc (forwardInit p c0) c0 ys) : 0 < p.phi k cc := by
  rw [← sum_fullW_emitCount] at h
  have hex : ∃ z, fullW p c0 ys z * (fullEmitCount k cc c0 ys z : ℚ) ≠ 0 := by
    by_contra hq
    push_neg at hq
    rw [Finset.sum_eq_zero fun z _ => hq z] at h
    exact lt_irrefl 0 h
  obtain ⟨z, hz⟩ := hex
  have hW : fullW p c0 ys z ≠ 0 := fun h0 => hz (by rw [h0]; ring)
  have hn : 0 < fullEmitCount k cc c0 ys z := by
    rcases Nat.eq_zero_or_pos (fullEmitCount k cc c0 ys z) with h0 | h0
    · exact absurd (by rw [h0]; push_cast; ring) hz
    · exact h0
  exact (fullW_factors_pos p hp c0 ys z hW).2.2 (k, cc) hn

theorem rpow_sum_of_nonneg {ι : Type} (x : ℝ) (hx : 0 ≤ x) (e : ι → ℝ) :
    ∀ (s : Finset ι), (∀ i ∈ s, 0 ≤ e i) →
      x ^ (∑ i ∈ s, e i) = ∏ i ∈ s, x ^ e i := by
  intro s
  classical
  induction s using Finset.induction_on with
  | empty => intro _; simp
  | insert hni ih =>
    intro he
    rw [Finset.sum_insert hni, Finset.prod_insert hni,
      Real.rpow_add_of_nonneg hx (he _ (Finset.mem_insert_self _ _))
        (Finset.sum_nonneg fun i hi => he i (Finset.mem_insert_of_mem hi)),
      ih fun i hi => he i (Finset.mem_insert_of_mem hi)]

/-- Per-row Gibbs inequality in product form: replacing a probability row
`pr` by the normalized count row `c / Σc` does not decrease the weighted
geometric mean with exponents `c / s`.  The counts must be supported on the
support of `pr`. -/
theorem gibbs_row {ι : Type} [Fintype ι] (pr c : ι → ℝ)
    (hpr : ∀ j, 0 ≤ pr j) (hpr1 : ∑ j, pr j = 1)
    (hc : ∀ j, 0 ≤ c j) (hsupp : ∀ j, 0 < c j → 0 < pr j)
    (hS : 0 < ∑ j, c j) (s : ℝ) (hs : 0 < s) :
    1 ≤ ∏ j, ((c j / ∑ i, c i) / pr j) ^ (c j / s) := by
  have hSne : (∑ i, c i) ≠ 0 := ne_of_gt hS
  have hlnn : ∀ j, 0 ≤ c j / ∑ i, c i :=
    fun j => div_nonneg (hc j) (le_of_lt hS)
  have hl1 : ∑ j, c j / ∑ i, c i = 1 := by
    rw [← Finset.sum_div, div_self hSne]
  have hvals : ∀ j, 0 ≤ pr j / (c j / ∑ i, c i) :=
    fun j => div_nonneg (hpr j) (hlnn j)
  have hB1 : (∏ j, (pr j / (c j / ∑ i, c i)) ^ (c j / ∑ i, c i)) ≤ 1 := by
    have hAM := Real.geom_mean_le_arith_mean_weighted Finset.univ
      (fun j => c j / ∑ i, c i) (fun j => pr j / (c j / ∑ i, c i))
      (fun j _ => hlnn j) hl1 (fun j _ => hvals j)
    refine le_trans hAM ?_
    have hterm : ∀ j, (c j / ∑ i, c i) * (pr j / (c j / ∑ i, c i)) ≤ pr j := by
      intro j
      rcases eq_or_lt_of_le (hc j) with h0 | h0
      · rw [← h0]
        simp [hpr j]
      · have hcS : c j / ∑ i, c i ≠ 0 := ne_of_gt (div_pos h0 hS)
        rw [mul_comm, div_mul_cancel₀ _ hcS]
    calc ∑ j, (c j / ∑ i, c i) * (pr j / (c j / ∑ i, c i))
        ≤ ∑ j, pr j := Finset.sum_le_sum fun j _ => hterm j
      _ = 1 := hpr1
  have hAB : (∏ j, ((c j / ∑ i, c i) / pr j) ^ (c j / ∑ i, c i))
      * (∏ j, (pr j / (c j / ∑ i, c i)) ^ (c j / ∑ i, c i)) = 1 := by
    rw [← Finset.prod_mul_distrib]
    refine Finset.prod_eq_one ?_
    intro j _
    rcases eq_or_lt_of_le (hc j) with h0 | h0
    · rw [← h0]
      simp
    · have hprj := hsupp j h0
      have hq : 0 < c j / ∑ i, c i := div_pos h0 hS
      rw [← Real.mul_rpow (div_nonneg (le_of_lt hq) (hpr j)) (hvals j)]
      have hone : ((c j / ∑ i, c i) / pr j) * (pr j / (c j / ∑ i, c i)) = 1 := by
        field_simp
        ring
      rw [hone, Real.one_rpow]
  have hA1 : 1 ≤ ∏ j, ((c j / ∑ i, c i) / pr j) ^ (c j / ∑ i, c i) := by
    have h2 : (∏ j, ((c j / ∑ i, c i) / pr j) ^ (c j / ∑ i, c i))
        * (∏ j, (pr j / (c j / ∑ i, c i)) ^ (c j / ∑ i, c i))
        ≤ (∏ j, ((c j / ∑ i, c i) / pr j) ^ (c j / ∑ i, c i)) * 1 := by
      refine mul_le_mul_of_nonneg_left hB1 ?_
      exact Finset.prod_nonneg fun j _ =>
        Real.rpow_nonneg (div_nonneg (hlnn j) (hpr j)) _
    rw [hAB, mul_one] at h2
    exact h2
  have hκ : 0 ≤ (∑ i, c i) / s := div_nonneg (le_of_lt hS) (le_of_lt hs)
  have hexp : ∀ j, c j / s = (c j / ∑ i, c i) * ((∑ i, c i) / s) := by
    intro j
    field_simp
  have hfact : ∀ j, ((c j / ∑ i, c i) / pr j) ^ (c j / s)
      = (((c j / ∑ i, c i) / pr j) ^ (c j / ∑ i, c i)) ^ ((∑ i, c i) / s) := by
    intro j
    rw [hexp j, Real.rpow_mul (div_nonneg (hlnn j) (hpr j))]
  rw [Finset.prod_congr rfl fun j _ => hfact j,
    Real.finset_prod_rpow Finset.univ _
      (fun j _ => Real.rpow_nonneg (div_nonneg (hlnn j) (hpr j)) _)
      ((∑ i, c i) / s)]
  calc (1 : ℝ) = 1 ^ ((∑ i, c i) / s) := (Real.one_rpow _).symm
    _ ≤ (∏ j, ((c j / ∑ i, c i) / pr j) ^ (c j / ∑ i, c i)) ^ ((∑ i, c i) / s) :=
        Real.rpow_le_rpow zero_le_one hA1 hκ

theorem one_le_prod_real {ι : Type} [Fintype ι] (f : ι → ℝ) (h : ∀ i, 1 ≤ f i) :
    1 ≤ ∏ i, f i := by
  calc (1:ℝ) = ∏ _i : ι, 1 := by rw [Finset.prod_const_one]
    _ ≤ ∏ i, f i := Finset.prod_le_prod (fun i _ => zero_le_one) (fun i _ => h i)

/-- Gibbs inequality over the transition rows: the product over all
transition entries of (updated / current) raised to (expected count /
likelihood) is at least one. -/
theorem prodA_ge_one {K C : ℕ} (p : Params K C) (hv : p.valid) (c0 : Fin C)
    (ys : List (Fin C)) (hL : likelihood p (c0 :: ys) ≠ 0) :
    1 ≤ ∏ u : Fin K × Fin K,
      (((mStep (c0 :: ys) p).A u.1 u.2 : ℝ) / ((p.A u.1 u.2 : ℚ) : ℝ))
        ^ (((aNum p u.1 u.2 (forwardInit p c0) ys : ℚ) : ℝ)
            / ((likelihood p (c0 :: ys) : ℚ) : ℝ)) := by
  have hp := hv.toNonneg
  have ha0 : ∀ k, 0 ≤ forwardInit p c0 k :=
    fun k => mul_nonneg (hp.2.2 k) (hp.2.1 k c0)
  have hLpos : (0:ℚ) < likelihood p (c0 :: ys) :=
    lt_of_le_of_ne (likelihood_nonneg p hp _) (Ne.symm hL)
  rw [Fintype.prod_prod_type]
  refine one_le_prod_real _ fun i => ?_
  show 1 ≤ ∏ j, (((mStep (c0 :: ys) p).A i j : ℝ) / ((p.A i j : ℚ) : ℝ))
      ^ (((aNum p i j (forwardInit p c0) ys : ℚ) : ℝ)
          / ((likelihood p (c0 :: ys) : ℚ) : ℝ))
  by_cases hd : aDen p i (forwardInit p c0) ys = 0
  · have hzero : ∀ j, aNum p i j (forwardInit p c0) ys = 0 := by
      intro j
      have hsum := sum_aNum_eq_aDen p i ys (forwardInit p c0)
      rw [hd] at hsum
      exact (Finset.sum_eq_zero_iff_of_nonneg
        (fun j' _ => aNum_nonneg p hp i j' ys (forwardInit p c0) ha0)).mp
        hsum j (Finset.mem_univ j)
    have hfac : ∀ j : Fin K,
        (((mStep (c0 :: ys) p).A i j : ℝ) / ((p.A i j : ℚ) : ℝ))
          ^ (((aNum p i j (forwardInit p c0) ys : ℚ) : ℝ)
              / ((likelihood p (c0 :: ys) : ℚ) : ℝ)) = 1 := by
      intro j
      rw [hzero j]
      simp
    rw [Finset.prod_congr rfl fun j _ => hfac j, Finset.prod_const_one]
  · have hdpos : (0:ℚ) < aDen p i (forwardInit p c0) ys :=
      lt_of_le_of_ne (aDen_nonneg p hp i ys (forwardInit p c0) ha0) (Ne.symm hd)
    have hsum : (∑ j, ((aNum p i j (forwardInit p c0) ys : ℚ) : ℝ))
        = ((aDen p i (forwardInit p c0) ys : ℚ) : ℝ) := by
      rw [← sum_aNum_eq_aDen p i ys (forwardInit p c0)]
      push_cast
      ring
    have hg := gibbs_row (fun j => ((p.A i j : ℚ) : ℝ))
      (fun j => ((aNum p i j (forwardInit p c0) ys : ℚ) : ℝ))
      (fun j => by
        show (0:ℝ) ≤ ((p.A i j : ℚ) : ℝ)
        exact_mod_cast hp.1 i j)
      (by exact_mod_cast (hv.1 i).2)
      (fun j => by
        show (0:ℝ) ≤ ((aNum p i j (forwardInit p c0) ys : ℚ) : ℝ)
        exact_mod_cast aNum_nonneg p hp i j ys (forwardInit p c0) ha0)
      (fun j hj => by
        have hj' : (0:ℝ) < ((aNum p i j (forwardInit p c0) ys : ℚ) : ℝ) := hj
        have h1 : 0 < aNum p i j (forwardInit p c0) ys := by exact_mod_cast hj'
        show (0:ℝ) < ((p.A i j : ℚ) : ℝ)
        exact_mod_cast A_pos_of_aNum_pos p hp c0 ys i j h1)
      (by
        show (0:ℝ) < ∑ j, ((aNum p i j (forwardInit p c0) ys : ℚ) : ℝ)
        rw [hsum]
        exact_mod_cast hdpos)
      (((likelihood p (c0 :: ys) : ℚ) : ℝ))
      (by exact_mod_cast hLpos)
    have hg2 : (1:ℝ) ≤ ∏ j, ((((aNum p i j (forwardInit p c0) ys : ℚ) : ℝ)
          / ∑ j', ((aNum p i j' (forwardInit p c0) ys : ℚ) : ℝ))
          / ((p.A i j : ℚ) : ℝ))
        ^ (((aNum p i j (forwardInit p c0) ys : ℚ) : ℝ)
            / ((likelihood p (c0 :: ys) : ℚ) : ℝ)) := hg
    refine le_trans hg2 (le_of_eq (Finset.prod_congr rfl fun j _ => ?_))
    have hbase : ((aNum p i j (forwardInit p c0) ys : ℚ) : ℝ)
          / (∑ j', ((aNum p i j' (forwardInit p c0) ys : ℚ) : ℝ))
        = ((mStep (c0 :: ys) p).A i j : ℝ) := by
      rw [hsum, mStep_A_eq p c0 ys hL i j, if_neg hd]
      push_cast
      ring
    rw [hbase]

/-- Gibbs inequality over the emission rows. -/
theorem prodPhi_ge_one {K C : ℕ} (p : Params K C) (hv : p.valid) (c0 : Fin C)
    (ys : List (Fin C)) (hL : likelihood p (c0 :: ys) ≠ 0) :
    1 ≤ ∏ v : Fin K × Fin C,
      (((mStep (c0 :: ys) p).phi v.1 v.2 : ℝ) / ((p.phi v.1 v.2 : ℚ) : ℝ))
        ^ (((phiNum p v.1 v.2 (forwardInit p c0) c0 ys : ℚ) : ℝ)
            / ((likelihood p (c0 :: ys) : ℚ) : ℝ)) := by
  have hp := hv.toNonneg
  have ha0 : ∀ k, 0 ≤ forwardInit p c0 k :=
    fun k => mul_nonneg (hp.2.2 k) (hp.2.1 k c0)
  have hLpos : (0:ℚ) < likelihood p (c0 :: ys) :=
    lt_of_le_of_ne (likelihood_nonneg p hp _) (Ne.symm hL)
  rw [Fintype.prod_prod_type]
  refine one_le_prod_real _ fun k => ?_
  show 1 ≤ ∏ cc, (((mStep (c0 :: ys) p).phi k cc : ℝ) / ((p.phi k cc : ℚ) : ℝ))
      ^ (((phiNum p k cc (forwardInit p c0) c0 ys : ℚ) : ℝ)
          / ((likelihood p (c0 :: ys) : ℚ) : ℝ))
  by_cases hd : phiDen p k (forwardInit p c0) ys = 0
  · have hzero : ∀ cc, phiNum p k cc (forwardInit p c0) c0 ys = 0 := by
      intro cc
      have hsum := sum_phiNum_eq_phiDen p k ys (forwardInit p c0) c0
      rw [hd] at hsum
      exact (Finset.sum_eq_zero_iff_of_nonneg
        (fun cc' _ => phiNum_nonneg p hp k cc' ys (forwardInit p c0) c0 ha0)).mp
        hsum cc (Finset.mem_univ cc)
    have hfac : ∀ cc : Fin C,
        (((mStep (c0 :: ys) p).phi k cc : ℝ) / ((p.phi k cc : ℚ) : ℝ))
          ^ (((phiNum p k cc (forwardInit p c0) c0 ys : ℚ) : ℝ)
              / ((likelihood p (c0 :: ys) : ℚ) : ℝ)) = 1 := by
      intro cc
      rw [hzero cc]
      simp
    rw [Finset.prod_congr rfl fun cc _ => hfac cc, Finset.prod_const_one]
  · have hdpos : (0:ℚ) < phiDen p k (forwardInit p c0) ys :=
      lt_of_le_of_ne (phiDen_nonneg p hp k ys (forwardInit p c0) ha0) (Ne.symm hd)
    have hsum : (∑ cc, ((phiNum p k cc (forwardInit p c0) c0 ys : ℚ) : ℝ))
        = ((phiDen p k (forwardInit p c0) ys : ℚ) : ℝ) := by
      rw [← sum_phiNum_eq_phiDen p k ys (forwardInit p c0) c0]
      push_cast
      ring
    have hg := gibbs_row (fun cc => ((p.phi k cc : ℚ) : ℝ))
      (fun cc => ((phiNum p k cc (forwardInit p c0) c0 ys : ℚ) : ℝ))
      (fun cc => by
        show (0:ℝ) ≤ ((p.phi k cc : ℚ) : ℝ)
        exact_mod_cast hp.2.1 k cc)
      (by exact_mod_cast (hv.2.1 k).2)
      (fun cc => by
        show (0:ℝ) ≤ ((phiNum p k cc (forwardInit p c0) c0 ys : ℚ) : ℝ)
        exact_mod_cast phiNum_nonneg p hp k cc ys (forwardInit p c0) c0 ha0)
      (fun cc hcc => by
        have hcc' : (0:ℝ) < ((phiNum p k cc (forwardInit p c0) c0 ys : ℚ) : ℝ) := hcc
        have h1 : 0 < phiNum p k cc (forwardInit p c0) c0 ys := by
          exact_mod_cast hcc'
        show (0:ℝ) < ((p.phi k cc : ℚ) : ℝ)
        exact_mod_cast phi_pos_of_phiNum_pos p hp c0 ys k cc h1)
      (by
        show (0:ℝ) < ∑ cc, ((phiNum p k cc (forwardInit p c0) c0 ys : ℚ) : ℝ)
        rw [hsum]
        exact_mod_cast hdpos)
      (((likelihood p (c0 :: ys) : ℚ) : ℝ))
      (by exact_mod_cast hLpos)
    have hg2 : (1:ℝ) ≤ ∏ cc, ((((phiNum p k cc (forwardInit p c0) c0 ys : ℚ) : ℝ)
          / ∑ cc', ((phiNum p k cc' (forwardInit p c0) c0 ys : ℚ) : ℝ))
          / ((p.phi k cc : ℚ) : ℝ))
        ^ (((phiNum p k cc (forwardInit p c0) c0 ys : ℚ) : ℝ)
            / ((likelihood p (c0 :: ys) : ℚ) : ℝ)) := hg
    refine le_trans hg2 (le_of_eq (Finset.prod_congr rfl fun cc _ => ?_))
    have hbase : ((phiNum p k cc (forwardInit p c0) c0 ys : ℚ) : ℝ)
          / (∑ cc', ((phiNum p k cc' (forwardInit p c0) c0 ys : ℚ) : ℝ))
        = ((mStep (c0 :: ys) p).phi k cc : ℝ) := by
      rw [hsum, mStep_phi_eq p c0 ys hL k cc, if_neg hd]
      push_cast
      ring
    rw [hbase]

theorem pow_nat_rpow_eq (x : ℝ) (hx : 0 ≤ x) (n : ℕ) (e : ℝ) :
    (x ^ n) ^ e = x ^ ((n : ℝ) * e) := by
  rw [Real.rpow_mul hx, Real.rpow_natCast]

/-- Real-valued form of the full-path weight factorization. -/
theorem fullW_cast_factor {K C : ℕ} (pp : Params K C) (c0 : Fin C)
    (ys : List (Fin C)) (z : Mathlib.Vector (Fin K) (ys.length + 1)) :
    ((fullW pp c0 ys z : ℚ) : ℝ)
      = ((pp.pi0 z.head : ℚ) : ℝ)
        * (∏ u : Fin K × Fin K,
            ((pp.A u.1 u.2 : ℚ) : ℝ) ^ fullTransCount u.1 u.2 ys z)
        * ∏ v : Fin K × Fin C,
            ((pp.phi v.1 v.2 : ℚ) : ℝ) ^ fullEmitCount v.1 v.2 c0 ys z := by
  rw [fullW_factor pp c0 ys z]
  push_cast
  ring

/-- On the support of the old weight, the per-path weight ratio after one
M-step factorizes into entrywise parameter ratios raised to the path
counts (the initial-distribution factor cancels because the M-step leaves
π untouched). -/
theorem ratio_factor {K C : ℕ} (p : Params K C) (hv : p.valid) (c0 : Fin C)
    (ys : List (Fin C)) (z : Mathlib.Vector (Fin K) (ys.length + 1))
    (hw : fullW p c0 ys z ≠ 0) :
    ((fullW (mStep (c0 :: ys) p) c0 ys z : ℚ) : ℝ)
        / ((fullW p c0 ys z : ℚ) : ℝ)
      = (∏ u : Fin K × Fin K,
          (((mStep (c0 :: ys) p).A u.1 u.2 : ℝ) / ((p.A u.1 u.2 : ℚ) : ℝ))
            ^ fullTransCount u.1 u.2 ys z)
        * ∏ v : Fin K × Fin C,
          (((mStep (c0 :: ys) p).phi v.1 v.2 : ℝ) / ((p.phi v.1 v.2 : ℚ) : ℝ))
            ^ fullEmitCount v.1 v.2 c0 ys z := by
  have hp := hv.toNonneg
  have hfp := fullW_factors_pos p hp c0 ys z hw
  have hπ : (0:ℝ) < ((p.pi0 z.head : ℚ) : ℝ) := by exact_mod_cast hfp.1
  have hA : (0:ℝ) < ∏ u : Fin K × Fin K,
      ((p.A u.1 u.2 : ℚ) : ℝ) ^ fullTransCount u.1 u.2 ys z := by
    refine Finset.prod_pos fun u _ => ?_
    rcases Nat.eq_zero_or_pos (fullTransCount u.1 u.2 ys z) with h0 | h0
    · rw [h0, pow_zero]; exact zero_lt_one
    · refine pow_pos ?_ _
      exact_mod_cast hfp.2.1 u h0
  have hφ : (0:ℝ) < ∏ v : Fin K × Fin C,
      ((p.phi v.1 v.2 : ℚ) : ℝ) ^ fullEmitCount v.1 v.2 c0 ys z := by
    refine Finset.prod_pos fun v _ => ?_
    rcases Nat.eq_zero_or_pos (fullEmitCount v.1 v.2 c0 ys z) with h0 | h0
    · rw [h0, pow_zero]; exact zero_lt_one
    · refine pow_pos ?_ _
      exact_mod_cast hfp.2.2 v h0
  have hπne := ne_of_gt hπ
  have hAne := ne_of_gt hA
  have hφne := ne_of_gt hφ
  have hWfac := fullW_cast_factor p c0 ys z
  have hW'fac := fullW_cast_factor (mStep (c0 :: ys) p) c0 ys z
  rw [mStep_pi0] at hW'fac
  have hdA : (∏ u : Fin K × Fin K,
      (((mStep (c0 :: ys) p).A u.1 u.2 : ℝ) / ((p.A u.1 u.2 : ℚ) : ℝ))
        ^ fullTransCount u.1 u.2 ys z)
      = (∏ u : Fin K × Fin K, ((mStep (c0 :: ys) p).A u.1 u.2 : ℝ)
          ^ fullTransCount u.1 u.2 ys z)
        / ∏ u : Fin K × Fin K, ((p.A u.1 u.2 : ℚ) : ℝ)
          ^ fullTransCount u.1 u.2 ys z := by
    rw [← Finset.prod_div_distrib]
    exact Finset.prod_congr rfl fun u _ => div_pow _ _ _
  have hdφ : (∏ v : Fin K × Fin C,
      (((mStep (c0 :: ys) p).phi v.1 v.2 : ℝ) / ((p.phi v.1 v.2 : ℚ) : ℝ))
        ^ fullEmitCount v.1 v.2 c0 ys z)
      = (∏ v : Fin K × Fin C, ((mStep (c0 :: ys) p).phi v.1 v.2 : ℝ)
          ^ fullEmitCount v.1 v.2 c0 ys z)
        / ∏ v : Fin K × Fin C, ((p.phi v.1 v.2 : ℚ) : ℝ)
          ^ fullEmitCount v.1 v.2 c0 ys z := by
    rw [← Finset.prod_div_distrib]
    exact Finset.prod_congr rfl fun v _ => div_pow _ _ _
  rw [hWfac, hW'fac, hdA, hdφ]
  field_simp
  ring

/-- Per-path form of the AM-GM factor: the weight ratio raised to the
normalized weight equals the product over parameter entries of the ratio
raised to (count × normalized weight).  Holds with no support hypothesis:
off the support both sides are 1. -/
theorem ratio_rpow_factor {K C : ℕ} (p : Params K C) (hv : p.valid)
    (c0 : Fin C) (ys : List (Fin C))
    (z : Mathlib.Vector (Fin K) (ys.length + 1)) :
    (((fullW (mStep (c0 :: ys) p) c0 ys z : ℚ) : ℝ)
        / ((fullW p c0 ys z : ℚ) : ℝ))
      ^ (((fullW p c0 ys z : ℚ) : ℝ) / ((likelihood p (c0 :: ys) : ℚ) : ℝ))
    = (∏ u : Fin K × Fin K,
        (((mStep (c0 :: ys) p).A u.1 u.2 : ℝ) / ((p.A u.1 u.2 : ℚ) : ℝ))
          ^ ((fullTransCount u.1 u.2 ys z : ℝ)
              * (((fullW p c0 ys z : ℚ) : ℝ)
                  / ((likelihood p (c0 :: ys) : ℚ) : ℝ))))
      * ∏ v : Fin K × Fin C,
        (((mStep (c0 :: ys) p).phi v.1 v.2 : ℝ) / ((p.phi v.1 v.2 : ℚ) : ℝ))
          ^ ((fullEmitCount v.1 v.2 c0 ys z : ℝ)
              * (((fullW p c0 ys z : ℚ) : ℝ)
                  / ((likelihood p (c0 :: ys) : ℚ) : ℝ))) := by
  have hp := hv.toNonneg
  have hp' := (mStep_valid (c0 :: ys) p hv).toNonneg
  by_cases hw : fullW p c0 ys z = 0
  · simp [hw]
  · have hbAnn : ∀ u : Fin K × Fin K,
        (0:ℝ) ≤ ((mStep (c0 :: ys) p).A u.1 u.2 : ℝ)
          / ((p.A u.1 u.2 : ℚ) : ℝ) := fun u =>
      div_nonneg (by exact_mod_cast hp'.1 u.1 u.2) (by exact_mod_cast hp.1 u.1 u.2)
    have hbφnn : ∀ v : Fin K × Fin C,
        (0:ℝ) ≤ ((mStep (c0 :: ys) p).phi v.1 v.2 : ℝ)
          / ((p.phi v.1 v.2 : ℚ) : ℝ) := fun v =>
      div_nonneg (by exact_mod_cast hp'.2.1 v.1 v.2)
        (by exact_mod_cast hp.2.1 v.1 v.2)
    rw [ratio_factor p hv c0 ys z hw]
    rw [Real.mul_rpow
      (Finset.prod_nonneg fun u _ => pow_nonneg (hbAnn u) _)
      (Finset.prod_nonneg fun v _ => pow_nonneg (hbφnn v) _)]
    congr 1
    · rw [← Real.finset_prod_rpow Finset.univ _
        (fun u _ => pow_nonneg (hbAnn u) _) _]
      exact Finset.prod_congr rfl fun u _ => pow_nat_rpow_eq _ (hbAnn u) _ _
    · rw [← Real.finset_prod_rpow Finset.univ _
        (fun v _ => pow_nonneg (hbφnn v) _) _]
      exact Finset.prod_congr rfl fun v _ => pow_nat_rpow_eq _ (hbφnn v) _ _

/-- The total normalized-weight-weighted transition count is the
A-numerator over the likelihood. -/
theorem expected_exp_A {K C : ℕ} (p : Params K C) (c0 : Fin C)
    (ys : List (Fin C)) (u : Fin K × Fin K) :
    (∑ z, (fullTransCount u.1 u.2 ys z : ℝ)
        * (((fullW p c0 ys z : ℚ) : ℝ) / ((likelihood p (c0 :: ys) : ℚ) : ℝ)))
      = ((aNum p u.1 u.2 (forwardInit p c0) ys : ℚ) : ℝ)
        / ((likelihood p (c0 :: ys) : ℚ) : ℝ) := by
  rw [← sum_fullW_transCount p c0 ys u.1 u.2]
  push_cast
  rw [Finset.sum_div]
  exact Finset.sum_congr rfl fun z _ => by ring

/-- The total normalized-weight-weighted emission count is the
φ-numerator over the likelihood. -/
theorem expected_exp_phi {K C : ℕ} (p : Params K C) (c0 : Fin C)
    (ys : List (Fin C)) (v : Fin K × Fin C) :
    (∑ z, (fullEmitCount v.1 v.2 c0 ys z : ℝ)
        * (((fullW p c0 ys z : ℚ) : ℝ) / ((likelihood p (c0 :: ys) : ℚ) : ℝ)))
      = ((phiNum p v.1 v.2 (forwardInit p c0) c0 ys : ℚ) : ℝ)
        / ((likelihood p (c0 :: ys) : ℚ) : ℝ) := by
  rw [← sum_fullW_emitCount p c0 ys v.1 v.2]
  push_cast
  rw [Finset.sum_div]
  exact Finset.sum_congr rfl fun z _ => by ring

/-- EM monotonicity, core case: for valid parameters and a nonempty
sequence with nonzero likelihood, one M-step does not decrease the
likelihood (weighted AM-GM over latent paths plus the per-row Gibbs
inequality). -/
theorem likelihood_mStep_le_aux {K C : ℕ} (p : Params K C) (hv : p.valid)
    (c0 : Fin C) (ys : List (Fin C)) (hL : likelihood p (c0 :: ys) ≠ 0) :
    likelihood p (c0 :: ys) ≤ likelihood (mStep (c0 :: ys) p) (c0 :: ys) := by
  have hp := hv.toNonneg
  have hv' := mStep_valid (c0 :: ys) p hv
  have hp' := hv'.toNonneg
  have hLpos : (0:ℚ) < likelihood p (c0 :: ys) :=
    lt_of_le_of_ne (likelihood_nonneg p hp _) (Ne.symm hL)
  have hLR : (0:ℝ) < ((likelihood p (c0 :: ys) : ℚ) : ℝ) := by exact_mod_cast hLpos
  have hLne := ne_of_gt hLR
  have hWnn : ∀ z : Mathlib.Vector (Fin K) (ys.length + 1),
      (0:ℝ) ≤ ((fullW p c0 ys z : ℚ) : ℝ) := fun z => by
    exact_mod_cast fullW_nonneg p hp c0 ys z
  have hW'nn : ∀ z : Mathlib.Vector (Fin K) (ys.length + 1),
      (0:ℝ) ≤ ((fullW (mStep (c0 :: ys) p) c0 ys z : ℚ) : ℝ) := fun z => by
    exact_mod_cast fullW_nonneg (mStep (c0 :: ys) p) hp' c0 ys z
  have hqnn : ∀ z : Mathlib.Vector (Fin K) (ys.length + 1),
      (0:ℝ) ≤ ((fullW p c0 ys z : ℚ) : ℝ)
        / ((likelihood p (c0 :: ys) : ℚ) : ℝ) :=
    fun z => div_nonneg (hWnn z) (le_of_lt hLR)
  have hLsum : (∑ z, ((fullW p c0 ys z : ℚ) : ℝ))
      = ((likelihood p (c0 :: ys) : ℚ) : ℝ) := by
    exact_mod_cast (likelihood_eq_sum_fullW p c0 ys).symm
  have hqsum : (∑ z, ((fullW p c0 ys z : ℚ) : ℝ)
      / ((likelihood p (c0 :: ys) : ℚ) : ℝ)) = 1 := by
    rw [← Finset.sum_div, hLsum, div_self hLne]
  have hL'sum : (∑ z, ((fullW (mStep (c0 :: ys) p) c0 ys z : ℚ) : ℝ))
      = ((likelihood (mStep (c0 :: ys) p) (c0 :: ys) : ℚ) : ℝ) := by
    exact_mod_cast (likelihood_eq_sum_fullW (mStep (c0 :: ys) p) c0 ys).symm
  have hAM := Real.geom_mean_le_arith_mean_weighted Finset.univ
    (fun z => ((fullW p c0 ys z : ℚ) : ℝ)
      / ((likelihood p (c0 :: ys) : ℚ) : ℝ))
    (fun z => ((fullW (mStep (c0 :: ys) p) c0 ys z : ℚ) : ℝ)
      / ((fullW p c0 ys z : ℚ) : ℝ))
    (fun z _ => hqnn z) hqsum (fun z _ => div_nonneg (hW'nn z) (hWnn z))
  have hAM2 : (∏ z, (((fullW (mStep (c0 :: ys) p) c0 ys z : ℚ) : ℝ)
        / ((fullW p c0 ys z : ℚ) : ℝ))
      ^ (((fullW p c0 ys z : ℚ) : ℝ) / ((likelihood p (c0 :: ys) : ℚ) : ℝ)))
      ≤ ∑ z, (((fullW p c0 ys z : ℚ) : ℝ)
          / ((likelihood p (c0 :: ys) : ℚ) : ℝ))
        * (((fullW (mStep (c0 :: ys) p) c0 ys z : ℚ) : ℝ)
            / ((fullW p c0 ys z : ℚ) : ℝ)) := hAM
  have hub : (∑ z, (((fullW p c0 ys z : ℚ) : ℝ)
        / ((likelihood p (c0 :: ys) : ℚ) : ℝ))
        * (((fullW (mStep (c0 :: ys) p) c0 ys z : ℚ) : ℝ)
            / ((fullW p c0 ys z : ℚ) : ℝ)))
      ≤ ((likelihood (mStep (c0 :: ys) p) (c0 :: ys) : ℚ) : ℝ)
        / ((likelihood p (c0 :: ys) : ℚ) : ℝ) := by
    rw [← hL'sum, Finset.sum_div]
    refine Finset.sum_le_sum fun z _ => ?_
    by_cases hwz : ((fullW p c0 ys z : ℚ) : ℝ) = 0
    · rw [hwz]
      have h0 : (0:ℝ) / ((likelihood p (c0 :: ys) : ℚ) : ℝ)
          * (((fullW (mStep (c0 :: ys) p) c0 ys z : ℚ) : ℝ) / (0:ℝ)) = 0 := by
        simp
      rw [h0]
      exact div_nonneg (hW'nn z) (le_of_lt hLR)
    · have heq : ((fullW p c0 ys z : ℚ) : ℝ)
          / ((likelihood p (c0 :: ys) : ℚ) : ℝ)
          * (((fullW (mStep (c0 :: ys) p) c0 ys z : ℚ) : ℝ)
              / ((fullW p c0 ys z : ℚ) : ℝ))
          = ((fullW (mStep (c0 :: ys) p) c0 ys z : ℚ) : ℝ)
            / ((likelihood p (c0 :: ys) : ℚ) : ℝ) := by
        field_simp
        ring
      rw [heq]
  have hlow : (1:ℝ) ≤ ∏ z, (((fullW (mStep (c0 :: ys) p) c0 ys z : ℚ) : ℝ)
        / ((fullW p c0 ys z : ℚ) : ℝ))
      ^ (((fullW p c0 ys z : ℚ) : ℝ)
          / ((likelihood p (c0 :: ys) : ℚ) : ℝ)) := by
    rw [Finset.prod_congr rfl fun z _ => ratio_rpow_factor p hv c0 ys z,
      Finset.prod_mul_distrib]
    have hA : (∏ z, ∏ u : Fin K × Fin K,
        (((mStep (c0 :: ys) p).A u.1 u.2 : ℝ) / ((p.A u.1 u.2 : ℚ) : ℝ))
          ^ ((fullTransCount u.1 u.2 ys z : ℝ)
              * (((fullW p c0 ys z : ℚ) : ℝ)
                  / ((likelihood p (c0 :: ys) : ℚ) : ℝ))))
        = ∏ u : Fin K × Fin K,
          (((mStep (c0 :: ys) p).A u.1 u.2 : ℝ) / ((p.A u.1 u.2 : ℚ) : ℝ))
            ^ (((aNum p u.1 u.2 (forwardInit p c0) ys : ℚ) : ℝ)
                / ((likelihood p (c0 :: ys) : ℚ) : ℝ)) := by
      rw [Finset.prod_comm]
      refine Finset.prod_congr rfl fun u _ => ?_
      rw [← expected_exp_A p c0 ys u]
      exact (rpow_sum_of_nonneg _
        (div_nonneg (by exact_mod_cast hp'.1 u.1 u.2)
          (by exact_mod_cast hp.1 u.1 u.2)) _ Finset.univ
        (fun z _ => mul_nonneg (Nat.cast_nonneg _) (hqnn z))).symm
    have hφ : (∏ z, ∏ v : Fin K × Fin C,
        (((mStep (c0 :: ys) p).phi v.1 v.2 : ℝ) / ((p.phi v.1 v.2 : ℚ) : ℝ))
          ^ ((fullEmitCount v.1 v.2 c0 ys z : ℝ)
              * (((fullW p c0 ys z : ℚ) : ℝ)
                  / ((likelihood p (c0 :: ys) : ℚ) : ℝ))))
        = ∏ v : Fin K × Fin C,
          (((mStep (c0 :: ys) p).phi v.1 v.2 : ℝ) / ((p.phi v.1 v.2 : ℚ) : ℝ))
            ^ (((phiNum p v.1 v.2 (forwardInit p c0) c0 ys : ℚ) : ℝ)
                / ((likelihood p (c0 :: ys) : ℚ) : ℝ)) := by
      rw [Finset.prod_comm]
      refine Finset.prod_congr rfl fun v _ => ?_
      rw [← expected_exp_phi p c0 ys v]
      exact (rpow_sum_of_nonneg _
        (div_nonneg (by exact_mod_cast hp'.2.1 v.1 v.2)
          (by exact_mod_cast hp.2.1 v.1 v.2)) _ Finset.univ
        (fun z _ => mul_nonneg (Nat.cast_nonneg _) (hqnn z))).symm
    rw [hA, hφ]
    have h1 := prodA_ge_one p hv c0 ys hL
    have h2 := prodPhi_ge_one p hv c0 ys hL
    calc (1:ℝ) = 1 * 1 := (one_mul 1).symm
      _ ≤ _ := mul_le_mul h1 h2 zero_le_one (le_trans zero_le_one h1)
  have hfinal : (1:ℝ)
      ≤ ((likelihood (mStep (c0 :: ys) p) (c0 :: ys) : ℚ) : ℝ)
        / ((likelihood p (c0 :: ys) : ℚ) : ℝ) :=
    le_trans hlow (le_trans hAM2 hub)
  have hle : ((likelihood p (c0 :: ys) : ℚ) : ℝ)
      ≤ ((likelihood (mStep (c0 :: ys) p) (c0 :: ys) : ℚ) : ℝ) :=
    (one_le_div hLR).mp hfinal
  exact_mod_cast hle

/-- EM monotonicity: one Baum-Welch M-step never decreases the likelihood
of a valid parameter set (the empty sequence and the zero-likelihood case
are trivial; the core case is `likelihood_mStep_le_aux`). -/
theorem likelihood_mStep_le {K C : ℕ} (y : List (Fin C)) (p : Params K C)
    (hv : p.valid) : likelihood p y ≤ likelihood (mStep y p) y := by
  cases y with
  | nil => exact le_refl _
  | cons c0 ys =>
    by_cases hL : likelihood p (c0 :: ys) = 0
    · rw [hL]
      exact likelihood_nonneg (mStep (c0 :: ys) p)
        (mStep_valid (c0 :: ys) p hv).toNonneg _
    · exact likelihood_mStep_le_aux p hv c0 ys hL

/-- The EM loop records a non-decreasing likelihood trajectory: invariant
induction over the fuel, using `likelihood_mStep_le` at every step. -/
theorem fitLoop_chain {K C : ℕ} (y : List (Fin C)) (tol : ℚ) :
    ∀ (fuel : ℕ) (p : Params K C) (acc : List ℚ) (prev : Option ℚ),
      p.valid →
      List.Chain' (fun a b => a ≤ b) ((likelihood p y :: acc).reverse) →
      List.Chain' (fun a b => a ≤ b) (fitLoop y tol fuel p acc prev).1 := by
  intro fuel
  induction fuel with
  | zero =>
    intro p acc prev hv hc
    show List.Chain' (fun a b => a ≤ b) acc.reverse
    rw [List.reverse_cons] at hc
    exact (List.chain'_append.mp hc).1
  | succ m ih =>
    intro p acc prev hv hc
    have hmono := likelihood_mStep_le y p hv
    have hc' : List.Chain' (fun a b => a ≤ b)
        ((likelihood (mStep y p) y :: likelihood p y :: acc).reverse) := by
      rw [List.reverse_cons, List.chain'_append]
      refine ⟨hc, List.chain'_singleton _, ?_⟩
      intro a ha b hb
      rw [List.reverse_cons, List.getLast?_concat] at ha
      have ha' : a = likelihood p y := (Option.mem_some_iff.mp ha).symm
      rw [List.head?_cons] at hb
      have hb' : b = likelihood (mStep y p) y := (Option.mem_some_iff.mp hb).symm
      rw [ha', hb']
      exact hmono
    cases prev with
    | none =>
      rw [fitLoop_succ_none]
      exact ih (mStep y p) (likelihood p y :: acc) (some (likelihood p y))
        (mStep_valid y p hv) hc'
    | some l0 =>
      by_cases hstop : likelihood p y - l0 < tol
      · rw [fitLoop_succ_stop y tol l0 m p acc hstop]
        exact hc
      · rw [fitLoop_succ_go y tol l0 m p acc hstop]
        exact ih (mStep y p) (likelihood p y :: acc) (some (likelihood p y))
          (mStep_valid y p hv) hc'

/-- The unpadded trajectory of every EM run from a valid initialization is
non-decreasing. -/
theorem emRun_chain {K C : ℕ} (y : List (Fin C)) (tol : ℚ) (maxiter : ℕ)
    (p : Params K C) (hv : p.valid) :
    List.Chain' (fun a b => a ≤ b) (emRun y tol maxiter p).1 :=
  fitLoop_chain y tol maxiter p [] none hv (List.chain'_singleton _)

/-- Claim C3: for every run of the spec-modelled EM Optimizer `fit`, from
any valid initialization, the recorded likelihood trajectory is
non-decreasing over the iterations actually executed — in this exact
rational embedding no decrease occurs at all, hence in particular none
beyond any floating-point tolerance.  The first conjunct is the unpadded
trajectory of the run; the second is the prefix of the fixed-width row
returned by `fit` covering the iterations actually executed. -/
theorem C3_ll_trajectory_monotone {K C : ℕ} (m : HMM) (y : List (Fin C))
    (p : Params K C) (tol : ℚ) (hv : p.valid) :
    List.Chain' (fun a b => a ≤ b) (emRun (y.take m.n) tol fitMaxiter p).1 ∧
    List.Chain' (fun a b => a ≤ b)
      ((HMM.fit m y p tol).1.take
        (emRun (y.take m.n) tol fitMaxiter p).1.length) := by
  have h1 := emRun_chain (y.take m.n) tol fitMaxiter p hv
  refine ⟨h1, ?_⟩
  have h2 : (HMM.fit m y p tol).1
      = (emRun (y.take m.n) tol fitMaxiter p).1
        ++ List.replicate
            (fitMaxiter - (emRun (y.take m.n) tol fitMaxiter p).1.length) 0 :=
    rfl
  rw [h2, List.take_left]
  exact h1

/-- Witness for C3: a run of `fit` on the sequence [0,1] with n = 2,
tolerance 1 and uniform initial parameters. -/
theorem C3_ll_trajectory_monotone_witness :
    List.Chain' (fun a b => a ≤ b)
      (emRun (([0, 1] : List (Fin 2)).take (HMM.mk 2).n) 1 fitMaxiter pUnif).1 ∧
    List.Chain' (fun a b => a ≤ b)
      ((HMM.fit (HMM.mk 2) [0, 1] pUnif 1).1.take
        (emRun (([0, 1] : List (Fin 2)).take (HMM.mk 2).n) 1 fitMaxiter pUnif).1.length) :=
  C3_ll_trajectory_monotone (HMM.mk 2) [0, 1] pUnif 1
    (by
      refine ⟨fun i => ⟨fun j => ?_, ?_⟩, fun k => ⟨fun c => ?_, ?_⟩,
        ⟨fun k => ?_, ?_⟩⟩ <;>
        simp [pUnif, Fin.sum_univ_two])
